import Mathlib

/-!
# MPC.cpp: the trajectory evaluator `FG_eval` and the orchestrator `MPC::Solve`

A shallow embedding of `src/src/MPC.cpp`.

* Scalars (`double`, `AD<double>`) are the elements of an arbitrary linearly ordered field `R`
  (the real numbers in particular); rounding is not modelled.
* The elementary functions the program takes from `<cmath>` and CppAD (`cos`, `sin`, `atan`,
  `pow` with the exponent `3.0/2.0`, the constant `M_PI`) are the fields of `Elem R`.
  `pow` with an integral exponent (`pow(x, i)`, `pow(x, i - 1.0)`, `pow(x, 2.0)`) is the
  monoid power `x ^ n`, as `std::pow` computes it (with `pow(x, 0) = 1`).
* Vectors (`Eigen::VectorXd`, `CPPAD_TESTVECTOR`, `std::vector`) are lists; `v[i]` is `rd v i`
  and `v[i] = a` is `List.set`. An index outside the vector is undefined behaviour in the
  program; here such a read gives `0` and such a write changes nothing. The one read of the
  program that leaves a vector of a size it can be called with is `coeffs[1]` at line 166 for
  fewer than two coefficients: `psides0_checked` gives `none` there, and `psides0` is the
  value of the program for two or more coefficients.
* `size_t` and `int` indices are natural numbers: for a horizon `N ≥ 2` that fits in memory
  no index expression of the program leaves the range of `size_t`.
* The globals `N` and `Lf` are parameters of the functions; `Lf` is declared in `MPC.h`.
* An `AD<double>` declared without an initialiser has the value `0`.
* The external solver `CppAD::ipopt::solve` is a parameter of `Solve`.
-/

namespace MPC

variable {R : Type} [LinearOrderedField R]

/-- The elementary functions of `<cmath>` and CppAD used by the program. -/
structure Elem (R : Type) where
  /-- The function `CppAD::cos`. -/
  cos : R → R
  /-- The function `CppAD::sin`. -/
  sin : R → R
  /-- The function `atan`. -/
  atan : R → R
  /-- The function `CppAD::pow`, for an exponent that is not integral. -/
  rpow : R → R → R
  /-- The constant `M_PI`. -/
  M_PI : R

/-- The elementary functions of the real numbers. -/
noncomputable def realElem : Elem ℝ where
  cos := Real.cos
  sin := Real.sin
  atan := Real.arctan
  rpow := fun x y => x ^ y
  M_PI := Real.pi

/-- Reading `v[i]`. -/
def rd (v : List R) (i : ℕ) : R := v.getD i 0

/-! ## Globals (MPC.cpp lines 9-33) -/

/-- Global `size_t N = 25;` the configured horizon. -/
def N : ℕ := 25

/-- Global `double dt = 0.05;` -/
def dt : R := 0.05

/-- Global `const double ref_v = 60;` -/
def ref_v : R := 60

/-- Global `size_t x_start = 0;` -/
def x_start : ℕ := 0

/-- Global `size_t y_start = x_start + N;` -/
def y_start (N : ℕ) : ℕ := x_start + N

/-- Global `size_t psi_start = y_start + N;` -/
def psi_start (N : ℕ) : ℕ := y_start N + N

/-- Global `size_t v_start = psi_start + N;` -/
def v_start (N : ℕ) : ℕ := psi_start N + N

/-- Global `size_t cte_start = v_start + N;` -/
def cte_start (N : ℕ) : ℕ := v_start N + N

/-- Global `size_t epsi_start = cte_start + N;` -/
def epsi_start (N : ℕ) : ℕ := cte_start N + N

/-- Global `size_t delta_start = epsi_start + N;` -/
def delta_start (N : ℕ) : ℕ := epsi_start N + N

/-- Global `size_t a_start = delta_start + N - 1;` -/
def a_start (N : ℕ) : ℕ := delta_start N + N - 1

/-- Global `size_t n_vars = 6 * N + 2 * (N - 1);` (MPC::Solve, line 210). -/
def n_vars (N : ℕ) : ℕ := 6 * N + 2 * (N - 1)

/-- Global `size_t n_constraints = 6 * N;` (MPC::Solve, line 212). -/
def n_constraints (N : ℕ) : ℕ := 6 * N

/-! ## FG_eval::CalRcurv (lines 42-70) -/

/-- The value of `dx_dy` after lines 47-53. -/
def CalRcurv.dx_dy (coeffs : List R) (x : R) : R :=
  if coeffs.length > 2 then
    (List.range' 1 (coeffs.length - 1)).foldl
      (fun (dx_dy : R) (i : ℕ) => dx_dy + (i : R) * rd coeffs i * x ^ (i - 1)) 0
  else if coeffs.length = 2 then
    rd coeffs 1
  else
    0

/-- The value of `dx_dy` after lines 47-53 with the read of line 52 checked against the size
of `coeffs`: `none` when `coeffs[1]` is outside the vector. The reads of line 49 are at
`i < coeffs.size()`. -/
def CalRcurv.dx_dy_checked (coeffs : List R) (x : R) : Option R :=
  if coeffs.length > 2 then
    some ((List.range' 1 (coeffs.length - 1)).foldl
      (fun (dx_dy : R) (i : ℕ) => dx_dy + (i : R) * rd coeffs i * x ^ (i - 1)) 0)
  else if coeffs.length = 2 then
    coeffs[1]?
  else
    some 0

/-- The value of `d2x_dy2` after lines 55-61. -/
def CalRcurv.d2x_dy2 (coeffs : List R) (x : R) : R :=
  if coeffs.length > 3 then
    (List.range' 2 (coeffs.length - 2)).foldl
      (fun (d2x_dy2 : R) (i : ℕ) => d2x_dy2 + (i : R) * ((i : R) - 1) * rd coeffs i * x ^ (i - 2)) 0
  else if coeffs.length = 3 then
    rd coeffs 2
  else
    0

/-- Member `AD<double> CalRcurv(Eigen::VectorXd coeffs, AD<double> x)`. -/
def CalRcurv (E : Elem R) (coeffs : List R) (x : R) : R :=
  let dx_dy := CalRcurv.dx_dy coeffs x
  let d2x_dy2 := CalRcurv.d2x_dy2 coeffs x
  if d2x_dy2 ≠ 0 then
    E.rpow (1 + dx_dy ^ 2) (3 / 2) / |d2x_dy2|
  else
    1000

/-! ## FG_eval::operator() (lines 73-184) -/

/-- The value of `d` after lines 88-93, from `rcurv`. -/
def sharpness (rcurv : R) : R :=
  if rcurv ≥ 1000 then 0 else 1 / rcurv

/-- The value of `verr` after lines 96-101, from `d` and `vars[v_start + i]`. -/
def speedError (d v : R) : R :=
  if 10 * |d| < ref_v then v - (ref_v - 0) else v

/-- The body of the loop "Reference State Cost" (lines 84-106) at `i`. -/
def refStateCost (E : Elem R) (N : ℕ) (coeffs vars fg : List R) (i : ℕ) : List R :=
  let rcurv := CalRcurv E coeffs (rd vars (x_start + i))
  let d := sharpness rcurv
  let epsi := rd vars (epsi_start N + i)
  let cte := rd vars (cte_start N + i)
  let verr := speedError d (rd vars (v_start N + i))
  let fg := fg.set 0 (rd fg 0 + 1 * epsi ^ 2)
  let fg := fg.set 0 (rd fg 0 + 1 * cte ^ 2)
  let fg := fg.set 0 (rd fg 0 + 0.1 * verr ^ 2)
  fg

/-- The body of the loop over the actuators (lines 110-117) at `i`; the term `pow(a, 2)`
is commented out in the program, so the variable `a` of line 112 is read and not used. -/
def actuatorCost (N : ℕ) (vars fg : List R) (i : ℕ) : List R :=
  let delta := rd vars (delta_start N + i)
  fg.set 0 (rd fg 0 + delta ^ 2)

/-- The body of the loop over the actuator differences (lines 121-127) at `i`. -/
def actuatorRateCost (N : ℕ) (vars fg : List R) (i : ℕ) : List R :=
  let d_delta := rd vars (delta_start N + i + 1) - rd vars (delta_start N + i)
  let d_a := rd vars (a_start N + i + 1) - rd vars (a_start N + i)
  let fg := fg.set 0 (rd fg 0 + 500 * d_delta ^ 2)
  let fg := fg.set 0 (rd fg 0 + d_a ^ 2)
  fg

/-- The value of `f0` after lines 156-159. -/
def f0 (coeffs : List R) (x0 : R) : R :=
  (List.range coeffs.length).foldl (fun (f0 : R) (i : ℕ) => f0 + rd coeffs i * x0 ^ i) 0

/-- The value of `psides0` after lines 160-167. -/
def psides0 (coeffs : List R) (x0 : R) : R :=
  if coeffs.length > 2 then
    (List.range' 1 (coeffs.length - 1)).foldl
      (fun (psides0 : R) (i : ℕ) => psides0 + rd coeffs i * x0 ^ (i - 1) * (i : R)) 0
  else
    rd coeffs 1

/-- The value of `psides0` after lines 160-167 with the read of line 166 checked against the
size of `coeffs`: `none` when `coeffs[1]` is outside the vector. The reads of line 163 are
at `i < coeffs.size()`. -/
def psides0_checked (coeffs : List R) (x0 : R) : Option R :=
  if coeffs.length > 2 then
    some ((List.range' 1 (coeffs.length - 1)).foldl
      (fun (psides0 : R) (i : ℕ) => psides0 + rd coeffs i * x0 ^ (i - 1) * (i : R)) 0)
  else
    coeffs[1]?

/-- The value of `d_psi0` after lines 170-174, from its value at line 169. -/
def wrap (E : Elem R) (d_psi0 : R) : R :=
  if d_psi0 < -E.M_PI then d_psi0 + 2 * E.M_PI
  else if d_psi0 > E.M_PI then d_psi0 - 2 * E.M_PI
  else d_psi0

/-- The value of `d_psi0` after lines 169-174. -/
def d_psi0 (E : Elem R) (coeffs : List R) (x0 psi0 : R) : R :=
  wrap E (psi0 - E.atan (psides0 coeffs x0))

/-- The body of the loop "The rest of the constraints" (lines 142-182) at `i`. -/
def restConstraint (E : Elem R) (N : ℕ) (Lf : R) (coeffs vars fg : List R) (i : ℕ) : List R :=
  let x1 := rd vars (x_start + i + 1)
  let y1 := rd vars (y_start N + i + 1)
  let psi1 := rd vars (psi_start N + i + 1)
  let v1 := rd vars (v_start N + i + 1)
  let cte1 := rd vars (cte_start N + i + 1)
  let epsi1 := rd vars (epsi_start N + i + 1)
  let x0 := rd vars (x_start + i)
  let y0 := rd vars (y_start N + i)
  let psi0 := rd vars (psi_start N + i)
  let v0 := rd vars (v_start N + i)
  let delta0 := rd vars (delta_start N + i)
  let a0 := rd vars (a_start N + i)
  let f0 := f0 coeffs x0
  let d_psi0 := d_psi0 E coeffs x0 psi0
  let fg := fg.set (2 + x_start + i) (x1 - (x0 + v0 * E.cos psi0 * dt))
  let fg := fg.set (2 + y_start N + i) (y1 - (y0 + v0 * E.sin psi0 * dt))
  let fg := fg.set (2 + psi_start N + i) (psi1 - (psi0 + v0 / Lf * delta0 * dt))
  let fg := fg.set (2 + v_start N + i) (v1 - (v0 + a0 * dt))
  let fg := fg.set (2 + cte_start N + i) (cte1 - ((f0 - y0) + v0 * E.sin d_psi0 * dt))
  let fg := fg.set (2 + epsi_start N + i) (epsi1 - (d_psi0 + v0 / Lf * delta0 * dt))
  fg

/-- The cost part of `operator()` (lines 81-127). -/
def costPart (E : Elem R) (N : ℕ) (coeffs vars fg : List R) : List R :=
  let fg := fg.set 0 0
  let fg := (List.range N).foldl (refStateCost E N coeffs vars) fg
  let fg := (List.range (N - 1)).foldl (actuatorCost N vars) fg
  let fg := (List.range (N - 2)).foldl (actuatorRateCost N vars) fg
  fg

/-- The "Initial constraints" of `operator()` (lines 134-139). -/
def initialConstraints (N : ℕ) (vars fg : List R) : List R :=
  let fg := fg.set (1 + x_start) (rd vars x_start)
  let fg := fg.set (1 + y_start N) (rd vars (y_start N))
  let fg := fg.set (1 + psi_start N) (rd vars (psi_start N))
  let fg := fg.set (1 + v_start N) (rd vars (v_start N))
  let fg := fg.set (1 + cte_start N) (rd vars (cte_start N))
  let fg := fg.set (1 + epsi_start N) (rd vars (epsi_start N))
  fg

/-- Member `void operator()(ADvector& fg, const ADvector& vars)`: the vector `fg` on return.
`coeffs` is the member set by the constructor `FG_eval(coeffs)`. -/
def FG_eval (E : Elem R) (N : ℕ) (Lf : R) (coeffs : List R) (fg vars : List R) : List R :=
  let fg := costPart E N coeffs vars fg
  let fg := initialConstraints N vars fg
  let fg := (List.range (N - 1)).foldl (restConstraint E N Lf coeffs vars) fg
  fg

/-! ## MPC::Solve (lines 193-334) -/

/-- The enumeration `CppAD::ipopt::solve_result<Dvector>::status_type` of the solver. -/
inductive status_type where
  | not_defined
  | success
  | maxiter_exceeded
  | stop_at_tiny_step
  | stop_at_acceptable_point
  | local_infeasibility
  | user_requested_stop
  | feasible_point_found
  | diverging_iterates
  | restoration_failure
  | error_in_step_computation
  | invalid_number_detected
  | too_few_degrees_of_freedom
  | internal_error
  | unknown
  deriving DecidableEq, Repr

/-- The members of `CppAD::ipopt::solve_result<Dvector>` that `MPC::Solve` reads. -/
structure solve_result (R : Type) where
  /-- The member `status`. -/
  status : status_type
  /-- The member `x`, the solution vector. -/
  x : List R
  /-- The member `obj_value`. -/
  obj_value : R

/-- The external solver `CppAD::ipopt::solve`, from its arguments `options`, `xi`, `xl`, `xu`,
`gl`, `gu` and `fg_eval` to the `solution` it stores. -/
abbrev Solver (R : Type) : Type :=
  String → List R → List R → List R → List R → List R → (List R → List R → List R) →
    solve_result R

/-- The vector `vars` handed to the solver (lines 216-226); `Dvector vars(n_vars)` is a
vector of `n_vars` value-initialised elements. -/
def Solve.vars (N : ℕ) (state : List R) : List R :=
  let x := rd state 0
  let y := rd state 1
  let psi := rd state 2
  let v := rd state 3
  let cte := rd state 4
  let epsi := rd state 5
  let vars : List R := List.replicate (n_vars N) 0
  let vars := (List.range (n_vars N)).foldl (fun (vars : List R) (i : ℕ) => vars.set i 0) vars
  let vars := vars.set x_start x
  let vars := vars.set (y_start N) y
  let vars := vars.set (psi_start N) psi
  let vars := vars.set (v_start N) v
  let vars := vars.set (cte_start N) cte
  let vars := vars.set (epsi_start N) epsi
  vars

/-- The vector `vars_lowerbound` handed to the solver (lines 228-250). -/
def Solve.vars_lowerbound (R : Type) [LinearOrderedField R] (N : ℕ) : List R :=
  let vars_lowerbound : List R := List.replicate (n_vars N) 0
  let vars_lowerbound := (List.range (delta_start N)).foldl
    (fun (lb : List R) (i : ℕ) => lb.set i (-1.0e19)) vars_lowerbound
  let vars_lowerbound := (List.range' (delta_start N) (a_start N - delta_start N)).foldl
    (fun (lb : List R) (i : ℕ) => lb.set i (-0.436332)) vars_lowerbound
  let vars_lowerbound := (List.range' (a_start N) (n_vars N - a_start N)).foldl
    (fun (lb : List R) (i : ℕ) => lb.set i (-100.0)) vars_lowerbound
  vars_lowerbound

/-- The vector `vars_upperbound` handed to the solver (lines 228-250). -/
def Solve.vars_upperbound (R : Type) [LinearOrderedField R] (N : ℕ) : List R :=
  let vars_upperbound : List R := List.replicate (n_vars N) 0
  let vars_upperbound := (List.range (delta_start N)).foldl
    (fun (ub : List R) (i : ℕ) => ub.set i 1.0e19) vars_upperbound
  let vars_upperbound := (List.range' (delta_start N) (a_start N - delta_start N)).foldl
    (fun (ub : List R) (i : ℕ) => ub.set i 0.436332) vars_upperbound
  let vars_upperbound := (List.range' (a_start N) (n_vars N - a_start N)).foldl
    (fun (ub : List R) (i : ℕ) => ub.set i 100.0) vars_upperbound
  vars_upperbound

/-- The vector `constraints_lowerbound` handed to the solver (lines 254-267). -/
def Solve.constraints_lowerbound (N : ℕ) (state : List R) : List R :=
  let x := rd state 0
  let y := rd state 1
  let psi := rd state 2
  let v := rd state 3
  let cte := rd state 4
  let epsi := rd state 5
  let constraints_lowerbound : List R := List.replicate (n_constraints N) 0
  let constraints_lowerbound := (List.range (n_constraints N)).foldl
    (fun (lb : List R) (i : ℕ) => lb.set i 0) constraints_lowerbound
  let constraints_lowerbound := constraints_lowerbound.set x_start x
  let constraints_lowerbound := constraints_lowerbound.set (y_start N) y
  let constraints_lowerbound := constraints_lowerbound.set (psi_start N) psi
  let constraints_lowerbound := constraints_lowerbound.set (v_start N) v
  let constraints_lowerbound := constraints_lowerbound.set (cte_start N) cte
  let constraints_lowerbound := constraints_lowerbound.set (epsi_start N) epsi
  constraints_lowerbound

/-- The vector `constraints_upperbound` handed to the solver (lines 255-274). -/
def Solve.constraints_upperbound (N : ℕ) (state : List R) : List R :=
  let x := rd state 0
  let y := rd state 1
  let psi := rd state 2
  let v := rd state 3
  let cte := rd state 4
  let epsi := rd state 5
  let constraints_upperbound : List R := List.replicate (n_constraints N) 0
  let constraints_upperbound := (List.range (n_constraints N)).foldl
    (fun (ub : List R) (i : ℕ) => ub.set i 0) constraints_upperbound
  let constraints_upperbound := constraints_upperbound.set x_start x
  let constraints_upperbound := constraints_upperbound.set (y_start N) y
  let constraints_upperbound := constraints_upperbound.set (psi_start N) psi
  let constraints_upperbound := constraints_upperbound.set (v_start N) v
  let constraints_upperbound := constraints_upperbound.set (cte_start N) cte
  let constraints_upperbound := constraints_upperbound.set (epsi_start N) epsi
  constraints_upperbound

/-- The string `options` handed to the solver (lines 283-295). -/
def Solve.options : String :=
  let options := ""
  let options := options ++ "Integer print_level  0\n"
  let options := options ++ "Sparse  true        forward\n"
  let options := options ++ "Sparse  true        reverse\n"
  let options := options ++ "Numeric max_cpu_time          0.5\n"
  options

/-- The `solution` the solver stores at the call of lines 301-303. -/
def Solve.solution (E : Elem R) (N : ℕ) (Lf : R) (solve : Solver R) (state coeffs : List R) :
    solve_result R :=
  let fg_eval := FG_eval E N Lf coeffs
  solve Solve.options (Solve.vars N state) (Solve.vars_lowerbound R N)
    (Solve.vars_upperbound R N) (Solve.constraints_lowerbound N state)
    (Solve.constraints_upperbound N state) fg_eval

/-- The vector `result` built from `solution.x` (lines 317-331). -/
def Solve.result (N : ℕ) (x : List R) : List R :=
  let result : List R := []
  let result := result ++ [rd x (delta_start N)]
  let result := result ++ [rd x (a_start N)]
  let result := (List.range 10).foldl
    (fun (result : List R) (i : ℕ) => result ++ [rd x (x_start + i)]) result
  let result := (List.range 10).foldl
    (fun (result : List R) (i : ℕ) => result ++ [rd x (y_start N + i)]) result
  let result := result ++ [rd x (psi_start N + 2)]
  let result := result ++ [rd x (v_start N + 2)]
  let result := result ++ [rd x (cte_start N + 2)]
  let result := result ++ [rd x (epsi_start N + 2)]
  result

/-- The value of the flag `ok` when `MPC::Solve` returns (lines 194 and 306). -/
def Solve.ok (E : Elem R) (N : ℕ) (Lf : R) (solve : Solver R) (state coeffs : List R) : Bool :=
  let ok := true
  let solution := Solve.solution E N Lf solve state coeffs
  let ok := ok && decide (solution.status = status_type.success)
  ok

/-- Function `vector<double> MPC::Solve(Eigen::VectorXd state, Eigen::VectorXd coeffs)`: the
vector it returns. The flag `ok` is not read after line 306 and the output to `std::cout`
is not part of the value. -/
def Solve (E : Elem R) (N : ℕ) (Lf : R) (solve : Solver R) (state coeffs : List R) : List R :=
  let solution := Solve.solution E N Lf solve state coeffs
  Solve.result N solution.x

/-! ## The indices written and read by the program -/

/-- The indices of `fg` assigned by lines 134-139, in program order. -/
def initialConstraints.indices (N : ℕ) : List ℕ :=
  [1 + x_start, 1 + y_start N, 1 + psi_start N, 1 + v_start N, 1 + cte_start N,
    1 + epsi_start N]

/-- The indices of `fg` assigned by lines 176-181 at step `i` of the last loop, in program
order. -/
def restConstraint.indices (N i : ℕ) : List ℕ :=
  [2 + x_start + i, 2 + y_start N + i, 2 + psi_start N + i, 2 + v_start N + i,
    2 + cte_start N + i, 2 + epsi_start N + i]

/-- The indices of `fg` assigned as constraints by `operator()` (lines 134-182), in program
order. -/
def FG_eval.constraintIndices (N : ℕ) : List ℕ :=
  initialConstraints.indices N ++ (List.range (N - 1)).flatMap (restConstraint.indices N)

/-- The indices of `solution.x` read by lines 318-331, in program order, each with the block
(start, length) of the channel it is read for. -/
def Solve.result.reads (N : ℕ) : List (ℕ × (ℕ × ℕ)) :=
  [(delta_start N, (delta_start N, N - 1)), (a_start N, (a_start N, N - 1))] ++
    (List.range 10).map (fun i => (x_start + i, (x_start, N))) ++
    (List.range 10).map (fun i => (y_start N + i, (y_start N, N))) ++
    [(psi_start N + 2, (psi_start N, N)), (v_start N + 2, (v_start N, N)),
      (cte_start N + 2, (cte_start N, N)), (epsi_start N + 2, (epsi_start N, N))]

/-! ## Definitions that follow the specification -/

/-- The eight blocks of the decision-variable layout as the specification lists them:
the start and the length of the blocks of x, y, psi, v, cte, epsi, delta and a. -/
def layoutBlocks (N : ℕ) : List (ℕ × ℕ) :=
  [(x_start, N), (y_start N, N), (psi_start N, N), (v_start N, N), (cte_start N, N),
   (epsi_start N, N), (delta_start N, N - 1), (a_start N, N - 1)]

/-- Index `k` lies in the block `b` (start, length). -/
def inBlock (b : ℕ × ℕ) (k : ℕ) : Bool := decide (b.1 ≤ k ∧ k < b.1 + b.2)

/-- The reference polynomial `f` of the specification, `f(x) = Σ coeffs[i] x^i`. -/
noncomputable def pathPoly (coeffs : List R) : Polynomial R :=
  ∑ i in Finset.range coeffs.length, Polynomial.monomial i (rd coeffs i)

/-- The value `f(x)` of the reference polynomial. -/
noncomputable def pathValue (coeffs : List R) (x : R) : R :=
  (pathPoly coeffs).eval x

/-- The first derivative `f'(x)` of the reference polynomial. -/
noncomputable def pathSlope (coeffs : List R) (x : R) : R :=
  (Polynomial.derivative (pathPoly coeffs)).eval x

/-- The second derivative `f''(x)` of the reference polynomial. -/
noncomputable def pathSecond (coeffs : List R) (x : R) : R :=
  (Polynomial.derivative (Polynomial.derivative (pathPoly coeffs))).eval x

/-- The sharpness `d` of the specification: `1/rcurv` when `rcurv` is below the sentinel
`1000`, else `0`. -/
def specSharpness (rcurv : R) : R :=
  if rcurv < 1000 then 1 / rcurv else 0

/-- The speed error of the specification: `v - 60` if `10 |d| < 60`, else `v`. -/
def specSpeedError (d v : R) : R :=
  if 10 * |d| < 60 then v - 60 else v

/-- The entry `k` of the uniform-motion decision vector from the position `(x, y)` with the
heading `psi` at the target speed `60`: `x_t = x + 60 cos(psi) dt t`,
`y_t = y + 60 sin(psi) dt t`, `psi_t = psi`, `v_t = 60`, and `0` for every cte, epsi, delta
and a. -/
def uniformMotionAt (E : Elem R) (N : ℕ) (x y psi : R) (k : ℕ) : R :=
  if k < y_start N then x + 60 * E.cos psi * dt * ((k - x_start : ℕ) : R)
  else if k < psi_start N then y + 60 * E.sin psi * dt * ((k - y_start N : ℕ) : R)
  else if k < v_start N then psi
  else if k < cte_start N then 60
  else 0

/-- The uniform-motion decision vector, of length `n_vars`. -/
def uniformMotion (E : Elem R) (N : ℕ) (x y psi : R) : List R :=
  (List.range (n_vars N)).map (uniformMotionAt E N x y psi)

/-! # Theorems -/

/-! ## The layout -/

theorem y_start_eq (N : ℕ) : y_start N = N := by simp [y_start, x_start]

theorem psi_start_eq (N : ℕ) : psi_start N = 2 * N := by
  simp only [psi_start, y_start_eq]; omega

theorem v_start_eq (N : ℕ) : v_start N = 3 * N := by
  simp only [v_start, psi_start_eq]; omega

theorem cte_start_eq (N : ℕ) : cte_start N = 4 * N := by
  simp only [cte_start, v_start_eq]; omega

theorem epsi_start_eq (N : ℕ) : epsi_start N = 5 * N := by
  simp only [epsi_start, cte_start_eq]; omega

theorem delta_start_eq (N : ℕ) : delta_start N = 6 * N := by
  simp only [delta_start, epsi_start_eq]; omega

theorem a_start_eq (N : ℕ) : a_start N = 7 * N - 1 := by
  simp only [a_start, delta_start_eq]; omega

/-- C3: for every horizon `N ≥ 2` the offsets are strictly increasing from `x_start = 0` up to
`n_vars = 6N + 2(N-1)`, every block ends where the next one starts (the six state blocks hold
`N` indices, the delta and a blocks `N - 1`, and `a_start + (N-1) = n_vars`), every index
below `n_vars` lies in exactly one of the eight blocks, and the blocks hold no other index. -/
theorem layout_partition (N : ℕ) (hN : 2 ≤ N) :
    (x_start = 0 ∧ x_start < y_start N ∧ y_start N < psi_start N ∧ psi_start N < v_start N ∧
      v_start N < cte_start N ∧ cte_start N < epsi_start N ∧ epsi_start N < delta_start N ∧
      delta_start N < a_start N ∧ a_start N < n_vars N) ∧
    n_vars N = 6 * N + 2 * (N - 1) ∧
    (x_start + N = y_start N ∧ y_start N + N = psi_start N ∧ psi_start N + N = v_start N ∧
      v_start N + N = cte_start N ∧ cte_start N + N = epsi_start N ∧
      epsi_start N + N = delta_start N ∧ delta_start N + (N - 1) = a_start N ∧
      a_start N + (N - 1) = n_vars N) ∧
    (∀ k, k < n_vars N → (layoutBlocks N).countP (fun b => inBlock b k) = 1) ∧
    (∀ k, (∃ b ∈ layoutBlocks N, inBlock b k = true) → k < n_vars N) := by
  refine ⟨⟨rfl, ?_, ?_, ?_, ?_, ?_, ?_, ?_, ?_⟩, rfl, ⟨?_, ?_, ?_, ?_, ?_, ?_, ?_, ?_⟩, ?_, ?_⟩
  any_goals
    simp only [y_start_eq, psi_start_eq, v_start_eq, cte_start_eq, epsi_start_eq,
      delta_start_eq, a_start_eq, n_vars, x_start]
    omega
  · intro k hk
    simp only [layoutBlocks, inBlock, y_start_eq, psi_start_eq, v_start_eq, cte_start_eq,
      epsi_start_eq, delta_start_eq, a_start_eq, n_vars, x_start, List.countP_cons,
      List.countP_nil, decide_eq_true_eq] at hk ⊢
    split_ifs <;> omega
  · intro k
    simp only [layoutBlocks, inBlock, y_start_eq, psi_start_eq, v_start_eq, cte_start_eq,
      epsi_start_eq, delta_start_eq, a_start_eq, n_vars, x_start,
      List.mem_cons, List.mem_singleton, decide_eq_true_eq, List.not_mem_nil, or_false]
    rintro ⟨b, hb, h1, h2⟩
    rcases hb with rfl | rfl | rfl | rfl | rfl | rfl | rfl | rfl <;> simp only at h1 h2 <;> omega

/-- The layout of the configured horizon `N = 25` is a partition. -/
theorem layout_partition_witness :
    2 ≤ N ∧ a_start N + (N - 1) = n_vars N ∧
      ∀ k, k < n_vars N → (layoutBlocks N).countP (fun b => inBlock b k) = 1 :=
  ⟨by decide, (layout_partition N (by decide)).2.2.1.2.2.2.2.2.2.2,
    (layout_partition N (by decide)).2.2.2.1⟩

/-! ## The heading-error wrap -/

/-- C10: for a heading difference `d` with `|d| ≤ 3π` the wrapped value lies in `[-π, π]`;
for `d = π + e` and for `d = -π - e` with `0 < e < 2π` it lies in `(-π, π]`; and for
`|d| ≤ π` it is `d` unchanged. The wrapped value used in the residuals is
`d_psi0 = wrap (psi0 - atan (psides0))`. -/
theorem wrap_range (E : Elem R) (d : R) (h : |d| ≤ 3 * E.M_PI) :
    (-E.M_PI ≤ wrap E d ∧ wrap E d ≤ E.M_PI) ∧
    (∀ e : R, 0 < e → e < 2 * E.M_PI →
      (-E.M_PI < wrap E (E.M_PI + e) ∧ wrap E (E.M_PI + e) ≤ E.M_PI) ∧
      (-E.M_PI < wrap E (-E.M_PI - e) ∧ wrap E (-E.M_PI - e) ≤ E.M_PI)) ∧
    (|d| ≤ E.M_PI → wrap E d = d) ∧
    (∀ coeffs x0 psi0, d = psi0 - E.atan (psides0 coeffs x0) →
      d_psi0 E coeffs x0 psi0 = wrap E d) := by
  have hd := abs_le.mp h
  refine ⟨?_, ?_, ?_, ?_⟩
  · unfold wrap
    split_ifs with h1 h2 <;> constructor <;> linarith [hd.1, hd.2]
  · intro e he0 he
    unfold wrap
    refine ⟨?_, ?_⟩
    · split_ifs with h1 h2 <;> constructor <;> linarith
    · split_ifs with h1 h2 <;> constructor <;> linarith
  · intro hpi
    have hd1 := abs_le.mp hpi
    unfold wrap
    rw [if_neg (by linarith [hd1.1]), if_neg (by linarith [hd1.2])]
  · rintro coeffs x0 psi0 rfl
    rfl

/-- The wrap over the real numbers at the heading difference `4`, which is between `π` and
`3π`. -/
theorem wrap_range_witness :
    |(4 : ℝ)| ≤ 3 * realElem.M_PI ∧
      (-realElem.M_PI ≤ wrap realElem 4 ∧ wrap realElem 4 ≤ realElem.M_PI) :=
  have h : |(4 : ℝ)| ≤ 3 * realElem.M_PI := by
    have := Real.pi_gt_three
    simp only [realElem]
    rw [abs_of_pos (by norm_num)]
    linarith
  ⟨h, (wrap_range realElem 4 h).1⟩

/-! ## Vectors -/

theorem rd_set_eq (l : List R) (i : ℕ) (a : R) (h : i < l.length) : rd (l.set i a) i = a := by
  simp [rd, List.getD_eq_getElem?_getD, List.getElem?_set, h]

theorem rd_set_ne (l : List R) (i j : ℕ) (a : R) (h : i ≠ j) :
    rd (l.set i a) j = rd l j := by
  simp [rd, List.getD_eq_getElem?_getD, List.getElem?_set_ne h]

theorem rd_cons_zero (a : R) (l : List R) : rd (a :: l) 0 = a := rfl

/-- A loop whose body adds `t i` to the first entry adds the sum of the `t i`. -/
theorem foldl_head_add (step : List R → ℕ → List R) (t : ℕ → R)
    (hstep : ∀ a l i, step (a :: l) i = (a + t i) :: l) (a : R) (l : List R) (n : ℕ) :
    (List.range n).foldl step (a :: l) = (a + ∑ i in Finset.range n, t i) :: l := by
  induction n with
  | zero => simp
  | succ n ih =>
    rw [List.range_succ, List.foldl_append, ih, List.foldl_cons, List.foldl_nil, hstep,
      Finset.sum_range_succ, add_assoc]

/-- A loop that adds `g i` to an accumulator, for `i` from `s`, computes the sum. -/
theorem foldl_add_range' (g : ℕ → R) (s n : ℕ) :
    (List.range' s n).foldl (fun (acc : R) (i : ℕ) => acc + g i) 0
      = ∑ i in Finset.range n, g (s + i) := by
  induction n with
  | zero => simp
  | succ n ih =>
    rw [List.range'_1_concat, List.foldl_append, ih, List.foldl_cons, List.foldl_nil,
      Finset.sum_range_succ]

/-! ## The cost -/

theorem refStateCost_cons (E : Elem R) (N : ℕ) (coeffs vars : List R) (a : R) (l : List R)
    (i : ℕ) :
    refStateCost E N coeffs vars (a :: l) i =
      (a + (rd vars (epsi_start N + i) ^ 2 + rd vars (cte_start N + i) ^ 2 +
        0.1 * speedError (sharpness (CalRcurv E coeffs (rd vars (x_start + i))))
          (rd vars (v_start N + i)) ^ 2)) :: l := by
  simp only [refStateCost, List.set_cons_zero, rd_cons_zero]
  congr 1
  ring

theorem actuatorCost_cons (N : ℕ) (vars : List R) (a : R) (l : List R) (i : ℕ) :
    actuatorCost N vars (a :: l) i = (a + rd vars (delta_start N + i) ^ 2) :: l := by
  simp only [actuatorCost, List.set_cons_zero, rd_cons_zero]

theorem actuatorRateCost_cons (N : ℕ) (vars : List R) (a : R) (l : List R) (i : ℕ) :
    actuatorRateCost N vars (a :: l) i =
      (a + (500 * (rd vars (delta_start N + i + 1) - rd vars (delta_start N + i)) ^ 2 +
        (rd vars (a_start N + i + 1) - rd vars (a_start N + i)) ^ 2)) :: l := by
  simp only [actuatorRateCost, List.set_cons_zero, rd_cons_zero]
  congr 1
  ring

theorem sharpness_eq_spec (rcurv : R) : sharpness rcurv = specSharpness rcurv := by
  unfold sharpness specSharpness
  by_cases h : rcurv < 1000
  · rw [if_neg (not_le.mpr h), if_pos h]
  · rw [if_pos (not_lt.mp h), if_neg h]

theorem speedError_eq_spec (d v : R) : speedError d v = specSpeedError d v := by
  simp only [speedError, specSpeedError, ref_v, sub_zero]

/-- The cost part of `operator()` replaces the first entry of `fg` by the sum of the three
loops and leaves the other entries as they are. -/
theorem costPart_cons (E : Elem R) (N : ℕ) (coeffs vars : List R) (a : R) (l : List R) :
    costPart E N coeffs vars (a :: l) =
      (0 + (∑ i in Finset.range N,
          (rd vars (epsi_start N + i) ^ 2 + rd vars (cte_start N + i) ^ 2 +
            0.1 * speedError (sharpness (CalRcurv E coeffs (rd vars (x_start + i))))
              (rd vars (v_start N + i)) ^ 2))
        + (∑ i in Finset.range (N - 1), rd vars (delta_start N + i) ^ 2)
        + (∑ i in Finset.range (N - 2),
          (500 * (rd vars (delta_start N + i + 1) - rd vars (delta_start N + i)) ^ 2 +
            (rd vars (a_start N + i + 1) - rd vars (a_start N + i)) ^ 2))) :: l := by
  simp only [costPart, List.set_cons_zero]
  rw [foldl_head_add _ _ (refStateCost_cons E N coeffs vars),
    foldl_head_add _ _ (actuatorCost_cons N vars),
    foldl_head_add _ _ (actuatorRateCost_cons N vars)]

/-! ## The constraints -/

theorem length_costPart (E : Elem R) (N : ℕ) (coeffs vars fg : List R) :
    (costPart E N coeffs vars fg).length = fg.length := by
  cases fg with
  | nil =>
    have h1 : ∀ n, (List.range n).foldl (refStateCost E N coeffs vars) [] = [] := by
      intro n
      induction n with
      | zero => rfl
      | succ n ih => rw [List.range_succ, List.foldl_append, ih]; rfl
    have h2 : ∀ n, (List.range n).foldl (actuatorCost N vars) ([] : List R) = [] := by
      intro n
      induction n with
      | zero => rfl
      | succ n ih => rw [List.range_succ, List.foldl_append, ih]; rfl
    have h3 : ∀ n, (List.range n).foldl (actuatorRateCost N vars) ([] : List R) = [] := by
      intro n
      induction n with
      | zero => rfl
      | succ n ih => rw [List.range_succ, List.foldl_append, ih]; rfl
    simp only [costPart, List.set_nil, h1, h2, h3]
  | cons a l => rw [costPart_cons]; rfl

theorem length_initialConstraints (N : ℕ) (vars fg : List R) :
    (initialConstraints N vars fg).length = fg.length := by
  simp only [initialConstraints, List.length_set]

theorem length_restConstraint (E : Elem R) (N : ℕ) (Lf : R) (coeffs vars fg : List R) (i : ℕ) :
    (restConstraint E N Lf coeffs vars fg i).length = fg.length := by
  simp only [restConstraint, List.length_set]

theorem length_foldl_restConstraint (E : Elem R) (N : ℕ) (Lf : R) (coeffs vars fg : List R)
    (n : ℕ) :
    ((List.range n).foldl (restConstraint E N Lf coeffs vars) fg).length = fg.length := by
  induction n with
  | zero => rfl
  | succ n ih =>
    rw [List.range_succ, List.foldl_append, List.foldl_cons, List.foldl_nil,
      length_restConstraint, ih]

/-- Step `i` of the last loop leaves every entry outside its six indices as it is. -/
theorem rd_restConstraint_frame (E : Elem R) (N : ℕ) (Lf : R) (coeffs vars fg : List R)
    (i k : ℕ) (h : ∀ c, c < 6 → k ≠ 2 + c * N + i) :
    rd (restConstraint E N Lf coeffs vars fg i) k = rd fg k := by
  have h0 := h 0 (by omega)
  have h1 := h 1 (by omega)
  have h2 := h 2 (by omega)
  have h3 := h 3 (by omega)
  have h4 := h 4 (by omega)
  have h5 := h 5 (by omega)
  simp only [restConstraint, y_start_eq, psi_start_eq, v_start_eq, cte_start_eq, epsi_start_eq,
    x_start]
  simp (disch := omega) only [rd_set_ne]

theorem rd_foldl_restConstraint_frame (E : Elem R) (N : ℕ) (Lf : R) (coeffs vars fg : List R)
    (n k : ℕ) (h : ∀ i, i < n → ∀ c, c < 6 → k ≠ 2 + c * N + i) :
    rd ((List.range n).foldl (restConstraint E N Lf coeffs vars) fg) k = rd fg k := by
  induction n with
  | zero => rfl
  | succ n ih =>
    rw [List.range_succ, List.foldl_append, List.foldl_cons, List.foldl_nil,
      rd_restConstraint_frame _ _ _ _ _ _ _ _ (h n (by omega)),
      ih (fun i hi => h i (by omega))]

/-- The six entries that step `i` of the last loop writes. -/
theorem rd_restConstraint_values (E : Elem R) (N : ℕ) (Lf : R) (coeffs vars fg : List R)
    (i : ℕ) (hi : i + 1 < N) (hfg : fg.length = 1 + 6 * N) :
    rd (restConstraint E N Lf coeffs vars fg i) (2 + 0 * N + i) =
      rd vars (x_start + i + 1) - (rd vars (x_start + i) +
        rd vars (v_start N + i) * E.cos (rd vars (psi_start N + i)) * dt) ∧
    rd (restConstraint E N Lf coeffs vars fg i) (2 + 1 * N + i) =
      rd vars (y_start N + i + 1) - (rd vars (y_start N + i) +
        rd vars (v_start N + i) * E.sin (rd vars (psi_start N + i)) * dt) ∧
    rd (restConstraint E N Lf coeffs vars fg i) (2 + 2 * N + i) =
      rd vars (psi_start N + i + 1) - (rd vars (psi_start N + i) +
        rd vars (v_start N + i) / Lf * rd vars (delta_start N + i) * dt) ∧
    rd (restConstraint E N Lf coeffs vars fg i) (2 + 3 * N + i) =
      rd vars (v_start N + i + 1) - (rd vars (v_start N + i) + rd vars (a_start N + i) * dt) ∧
    rd (restConstraint E N Lf coeffs vars fg i) (2 + 4 * N + i) =
      rd vars (cte_start N + i + 1) - ((f0 coeffs (rd vars (x_start + i)) -
        rd vars (y_start N + i)) + rd vars (v_start N + i) *
          E.sin (d_psi0 E coeffs (rd vars (x_start + i)) (rd vars (psi_start N + i))) * dt) ∧
    rd (restConstraint E N Lf coeffs vars fg i) (2 + 5 * N + i) =
      rd vars (epsi_start N + i + 1) -
        (d_psi0 E coeffs (rd vars (x_start + i)) (rd vars (psi_start N + i)) +
          rd vars (v_start N + i) / Lf * rd vars (delta_start N + i) * dt) := by
  have e0 : 2 + x_start + i = 2 + 0 * N + i := by simp [x_start]
  have e1 : 2 + y_start N + i = 2 + 1 * N + i := by rw [y_start_eq]; omega
  have e2 : 2 + psi_start N + i = 2 + 2 * N + i := by rw [psi_start_eq]
  have e3 : 2 + v_start N + i = 2 + 3 * N + i := by rw [v_start_eq]
  have e4 : 2 + cte_start N + i = 2 + 4 * N + i := by rw [cte_start_eq]
  have e5 : 2 + epsi_start N + i = 2 + 5 * N + i := by rw [epsi_start_eq]
  simp only [restConstraint, e0, e1, e2, e3, e4, e5]
  refine ⟨?_, ?_, ?_, ?_, ?_, ?_⟩ <;>
    simp (disch := first | omega | (simp only [List.length_set]; omega)) only [rd_set_ne, rd_set_eq]

/-- After `n` steps of the last loop the entries of step `i < n` are those step `i` wrote. -/
theorem rd_foldl_restConstraint (E : Elem R) (N : ℕ) (Lf : R) (coeffs vars fg : List R)
    (n i c : ℕ) (hn : n + 1 ≤ N) (hi : i < n) (hc : c < 6) (hfg : fg.length = 1 + 6 * N) :
    rd ((List.range n).foldl (restConstraint E N Lf coeffs vars) fg) (2 + c * N + i) =
      rd (restConstraint E N Lf coeffs vars fg i) (2 + c * N + i) := by
  induction n with
  | zero => omega
  | succ n ih =>
    rw [List.range_succ, List.foldl_append, List.foldl_cons, List.foldl_nil]
    by_cases hin : i = n
    · subst hin
      have hlen : ((List.range i).foldl (restConstraint E N Lf coeffs vars) fg).length
          = 1 + 6 * N := by rw [length_foldl_restConstraint, hfg]
      have A := rd_restConstraint_values E N Lf coeffs vars _ i (by omega) hlen
      have B := rd_restConstraint_values E N Lf coeffs vars fg i (by omega) hfg
      interval_cases c
      · rw [A.1, B.1]
      · rw [A.2.1, B.2.1]
      · rw [A.2.2.1, B.2.2.1]
      · rw [A.2.2.2.1, B.2.2.2.1]
      · rw [A.2.2.2.2.1, B.2.2.2.2.1]
      · rw [A.2.2.2.2.2, B.2.2.2.2.2]
    · rw [rd_restConstraint_frame, ih (by omega) (by omega)]
      intro c1 hc1
      interval_cases c <;> interval_cases c1 <;> omega

/-! ## The reference polynomial -/

theorem pathValue_eq_sum (coeffs : List R) (x : R) :
    pathValue coeffs x = ∑ i in Finset.range coeffs.length, rd coeffs i * x ^ i := by
  simp only [pathValue, pathPoly, Polynomial.eval_finset_sum, Polynomial.eval_monomial]

theorem pathSlope_eq_sum (coeffs : List R) (x : R) :
    pathSlope coeffs x =
      ∑ i in Finset.range coeffs.length, rd coeffs i * (i : R) * x ^ (i - 1) := by
  simp only [pathSlope, pathPoly, Polynomial.derivative_sum, Polynomial.derivative_monomial,
    Polynomial.eval_finset_sum, Polynomial.eval_monomial]

theorem pathSecond_eq_sum (coeffs : List R) (x : R) :
    pathSecond coeffs x =
      ∑ i in Finset.range coeffs.length,
        rd coeffs i * (i : R) * ((i : R) - 1) * x ^ (i - 2) := by
  simp only [pathSecond, pathPoly, Polynomial.derivative_sum, Polynomial.derivative_monomial,
    Polynomial.eval_finset_sum, Polynomial.eval_monomial]
  refine Finset.sum_congr rfl (fun i _ => ?_)
  cases i with
  | zero => simp
  | succ j => simp [Nat.sub_sub]

/-- The loop of lines 157-159 evaluates the reference polynomial. -/
theorem f0_eq_pathValue (coeffs : List R) (x0 : R) : f0 coeffs x0 = pathValue coeffs x0 := by
  rw [pathValue_eq_sum, f0, List.range_eq_range',
    foldl_add_range' (fun i => rd coeffs i * x0 ^ i) 0 coeffs.length]
  simp only [zero_add]

/-- For at least two coefficients, lines 160-167 evaluate the derivative of the reference
polynomial. -/
theorem psides0_eq_pathSlope (coeffs : List R) (x0 : R) (h : 2 ≤ coeffs.length) :
    psides0 coeffs x0 = pathSlope coeffs x0 := by
  rw [pathSlope_eq_sum]
  obtain ⟨m, hm⟩ : ∃ m, coeffs.length = m + 1 := ⟨coeffs.length - 1, by omega⟩
  unfold psides0
  split_ifs with h2
  · rw [foldl_add_range' (fun i => rd coeffs i * x0 ^ (i - 1) * (i : R)) 1 (coeffs.length - 1),
      hm, Finset.sum_range_succ']
    simp only [Nat.add_sub_cancel, Nat.cast_zero, mul_zero, zero_mul, add_zero]
    refine Finset.sum_congr rfl (fun i _ => ?_)
    simp only [Nat.add_comm 1 i, Nat.add_sub_cancel]
    ring
  · have h3 : coeffs.length = 2 := by omega
    rw [h3]
    simp [Finset.sum_range_succ]

/-! ## FG_eval::operator() -/

theorem length_FG_eval_pre (E : Elem R) (N : ℕ) (coeffs vars fg : List R) :
    (initialConstraints N vars (costPart E N coeffs vars fg)).length = fg.length := by
  rw [length_initialConstraints, length_costPart]

/-- The entry of step `i` and channel `c` on return is the one step `i` of the last loop
writes. -/
theorem rd_FG_eval_rest (E : Elem R) (N : ℕ) (Lf : R) (coeffs vars fg : List R) (i c : ℕ)
    (hi : i < N - 1) (hc : c < 6) (hfg : fg.length = 1 + 6 * N) :
    rd (FG_eval E N Lf coeffs fg vars) (2 + c * N + i) =
      rd (restConstraint E N Lf coeffs vars
        (initialConstraints N vars (costPart E N coeffs vars fg)) i) (2 + c * N + i) := by
  unfold FG_eval
  exact rd_foldl_restConstraint E N Lf coeffs vars _ (N - 1) i c (by omega) hi hc
    (by rw [length_FG_eval_pre, hfg])

/-- The six initial constraints on return. -/
theorem rd_FG_eval_initial (E : Elem R) (N : ℕ) (Lf : R) (coeffs vars fg : List R)
    (hN : 2 ≤ N) (hfg : fg.length = 1 + 6 * N) :
    rd (FG_eval E N Lf coeffs fg vars) (1 + x_start) = rd vars x_start ∧
    rd (FG_eval E N Lf coeffs fg vars) (1 + y_start N) = rd vars (y_start N) ∧
    rd (FG_eval E N Lf coeffs fg vars) (1 + psi_start N) = rd vars (psi_start N) ∧
    rd (FG_eval E N Lf coeffs fg vars) (1 + v_start N) = rd vars (v_start N) ∧
    rd (FG_eval E N Lf coeffs fg vars) (1 + cte_start N) = rd vars (cte_start N) ∧
    rd (FG_eval E N Lf coeffs fg vars) (1 + epsi_start N) = rd vars (epsi_start N) := by
  have hlen : (costPart E N coeffs vars fg).length = 1 + 6 * N := by
    rw [length_costPart, hfg]
  have frame : ∀ c, c < 6 → ∀ i, i < N - 1 → ∀ c1, c1 < 6 → 1 + c * N ≠ 2 + c1 * N + i := by
    intro c hc i hi c1 hc1
    interval_cases c <;> interval_cases c1 <;> omega
  have key : ∀ c, c < 6 → rd (FG_eval E N Lf coeffs fg vars) (1 + c * N) =
      rd (initialConstraints N vars (costPart E N coeffs vars fg)) (1 + c * N) := by
    intro c hc
    unfold FG_eval
    exact rd_foldl_restConstraint_frame E N Lf coeffs vars _ (N - 1) (1 + c * N)
      (fun i hi c1 hc1 => frame c hc i hi c1 hc1)
  have k0 := key 0 (by omega)
  have k1 := key 1 (by omega)
  have k2 := key 2 (by omega)
  have k3 := key 3 (by omega)
  have k4 := key 4 (by omega)
  have k5 := key 5 (by omega)
  simp only [zero_mul, one_mul, add_zero] at k0 k1
  simp only [y_start_eq, psi_start_eq, v_start_eq, cte_start_eq, epsi_start_eq, x_start,
    add_zero, k0, k1, k2, k3, k4, k5, initialConstraints]
  refine ⟨?_, ?_, ?_, ?_, ?_, ?_⟩ <;>
    simp (disch := first | omega | (simp only [List.length_set]; omega)) only
      [rd_set_ne, rd_set_eq]

/-- C2: the constraint outputs at the six initial-state indices are the step-0 state entries
of the decision-variable vector, and they are the same for any other vector with these six
entries, any other coefficients, any other `Lf` and elementary functions, and whatever `fg`
held before the call. -/
theorem initial_constraints_identity (E : Elem R) (N : ℕ) (Lf : R) (coeffs vars fg : List R)
    (hN : 2 ≤ N) (hfg : fg.length = 1 + n_constraints N) :
    (rd (FG_eval E N Lf coeffs fg vars) (1 + x_start) = rd vars x_start ∧
      rd (FG_eval E N Lf coeffs fg vars) (1 + y_start N) = rd vars (y_start N) ∧
      rd (FG_eval E N Lf coeffs fg vars) (1 + psi_start N) = rd vars (psi_start N) ∧
      rd (FG_eval E N Lf coeffs fg vars) (1 + v_start N) = rd vars (v_start N) ∧
      rd (FG_eval E N Lf coeffs fg vars) (1 + cte_start N) = rd vars (cte_start N) ∧
      rd (FG_eval E N Lf coeffs fg vars) (1 + epsi_start N) = rd vars (epsi_start N)) ∧
    (∀ (E1 : Elem R) (Lf1 : R) (coeffs1 vars1 fg1 : List R),
      fg1.length = 1 + n_constraints N →
      rd vars1 x_start = rd vars x_start → rd vars1 (y_start N) = rd vars (y_start N) →
      rd vars1 (psi_start N) = rd vars (psi_start N) →
      rd vars1 (v_start N) = rd vars (v_start N) →
      rd vars1 (cte_start N) = rd vars (cte_start N) →
      rd vars1 (epsi_start N) = rd vars (epsi_start N) →
      rd (FG_eval E1 N Lf1 coeffs1 fg1 vars1) (1 + x_start) =
        rd (FG_eval E N Lf coeffs fg vars) (1 + x_start) ∧
      rd (FG_eval E1 N Lf1 coeffs1 fg1 vars1) (1 + y_start N) =
        rd (FG_eval E N Lf coeffs fg vars) (1 + y_start N) ∧
      rd (FG_eval E1 N Lf1 coeffs1 fg1 vars1) (1 + psi_start N) =
        rd (FG_eval E N Lf coeffs fg vars) (1 + psi_start N) ∧
      rd (FG_eval E1 N Lf1 coeffs1 fg1 vars1) (1 + v_start N) =
        rd (FG_eval E N Lf coeffs fg vars) (1 + v_start N) ∧
      rd (FG_eval E1 N Lf1 coeffs1 fg1 vars1) (1 + cte_start N) =
        rd (FG_eval E N Lf coeffs fg vars) (1 + cte_start N) ∧
      rd (FG_eval E1 N Lf1 coeffs1 fg1 vars1) (1 + epsi_start N) =
        rd (FG_eval E N Lf coeffs fg vars) (1 + epsi_start N)) := by
  have A := rd_FG_eval_initial E N Lf coeffs vars fg hN hfg
  refine ⟨A, ?_⟩
  intro E1 Lf1 coeffs1 vars1 fg1 hfg1 h0 h1 h2 h3 h4 h5
  have B := rd_FG_eval_initial E1 N Lf1 coeffs1 vars1 fg1 hN hfg1
  obtain ⟨a0, a1, a2, a3, a4, a5⟩ := A
  obtain ⟨b0, b1, b2, b3, b4, b5⟩ := B
  exact ⟨by rw [a0, b0, h0], by rw [a1, b1, h1], by rw [a2, b2, h2], by rw [a3, b3, h3],
    by rw [a4, b4, h4], by rw [a5, b5, h5]⟩

/-- The decision-variable vector of the examples for the horizon `2`: the blocks of x, y, psi,
v, cte and epsi hold two entries each, delta and a one each. -/
theorem initial_constraints_identity_witness :
    (2 ≤ 2 ∧ (List.replicate 13 (0 : ℝ)).length = 1 + n_constraints 2) ∧
      rd (FG_eval realElem 2 1 [0, 1] (List.replicate 13 0)
        [1, 0, 2, 0, 3, 0, 4, 0, 5, 0, 6, 0, 0, 0]) (1 + x_start) = 1 ∧
      rd (FG_eval realElem 2 1 [0, 1] (List.replicate 13 0)
        [1, 0, 2, 0, 3, 0, 4, 0, 5, 0, 6, 0, 0, 0]) (1 + epsi_start 2) = 6 :=
  ⟨⟨le_refl 2, rfl⟩,
    (initial_constraints_identity realElem 2 1 [0, 1] [1, 0, 2, 0, 3, 0, 4, 0, 5, 0, 6, 0, 0, 0]
      (List.replicate 13 0) (le_refl 2) rfl).1.1,
    (initial_constraints_identity realElem 2 1 [0, 1] [1, 0, 2, 0, 3, 0, 4, 0, 5, 0, 6, 0, 0, 0]
      (List.replicate 13 0) (le_refl 2) rfl).1.2.2.2.2.2⟩

/-- C1: for coefficients of length at least 2 and a step `i` in `[0, N-1)`, the six entries
written for step `i+1` are the step-`(i+1)` variable minus the kinematic prediction from step
`i`, where `f` is the polynomial of the coefficients and the heading error is the wrapped
`psi0 - atan(f'(x0))`; hence the six entries are `0` when the step-`(i+1)` variables satisfy
the update equations. -/
theorem residuals_eq_prediction (E : Elem R) (N : ℕ) (Lf : R) (coeffs vars fg : List R)
    (i : ℕ) (hc : 2 ≤ coeffs.length) (hi : i < N - 1) (hfg : fg.length = 1 + n_constraints N) :
    let out := FG_eval E N Lf coeffs fg vars
    let x0 := rd vars (x_start + i)
    let y0 := rd vars (y_start N + i)
    let psi0 := rd vars (psi_start N + i)
    let v0 := rd vars (v_start N + i)
    let delta0 := rd vars (delta_start N + i)
    let a0 := rd vars (a_start N + i)
    let x1 := rd vars (x_start + i + 1)
    let y1 := rd vars (y_start N + i + 1)
    let psi1 := rd vars (psi_start N + i + 1)
    let v1 := rd vars (v_start N + i + 1)
    let cte1 := rd vars (cte_start N + i + 1)
    let epsi1 := rd vars (epsi_start N + i + 1)
    let d_psi := wrap E (psi0 - E.atan (pathSlope coeffs x0))
    (rd out (2 + x_start + i) = x1 - (x0 + v0 * E.cos psi0 * dt) ∧
      rd out (2 + y_start N + i) = y1 - (y0 + v0 * E.sin psi0 * dt) ∧
      rd out (2 + psi_start N + i) = psi1 - (psi0 + (v0 / Lf) * delta0 * dt) ∧
      rd out (2 + v_start N + i) = v1 - (v0 + a0 * dt) ∧
      rd out (2 + cte_start N + i) =
        cte1 - ((pathValue coeffs x0 - y0) + v0 * E.sin d_psi * dt) ∧
      rd out (2 + epsi_start N + i) = epsi1 - (d_psi + (v0 / Lf) * delta0 * dt)) ∧
    (x1 = x0 + v0 * E.cos psi0 * dt → y1 = y0 + v0 * E.sin psi0 * dt →
      psi1 = psi0 + (v0 / Lf) * delta0 * dt → v1 = v0 + a0 * dt →
      cte1 = (pathValue coeffs x0 - y0) + v0 * E.sin d_psi * dt →
      epsi1 = d_psi + (v0 / Lf) * delta0 * dt →
      rd out (2 + x_start + i) = 0 ∧ rd out (2 + y_start N + i) = 0 ∧
      rd out (2 + psi_start N + i) = 0 ∧ rd out (2 + v_start N + i) = 0 ∧
      rd out (2 + cte_start N + i) = 0 ∧ rd out (2 + epsi_start N + i) = 0) := by
  intro out x0 y0 psi0 v0 delta0 a0 x1 y1 psi1 v1 cte1 epsi1 d_psi
  have hlen : (initialConstraints N vars (costPart E N coeffs vars fg)).length = 1 + 6 * N := by
    rw [length_FG_eval_pre, hfg]; rfl
  have V := rd_restConstraint_values E N Lf coeffs vars _ i (by omega) hlen
  have key : ∀ c, c < 6 → rd out (2 + c * N + i) =
      rd (restConstraint E N Lf coeffs vars
        (initialConstraints N vars (costPart E N coeffs vars fg)) i) (2 + c * N + i) :=
    fun c hc1 => rd_FG_eval_rest E N Lf coeffs vars fg i c hi hc1 hfg
  have hd : d_psi0 E coeffs x0 psi0 = d_psi := by
    show wrap E (psi0 - E.atan (psides0 coeffs x0)) = _
    rw [psides0_eq_pathSlope coeffs x0 hc]
  have e0 : 2 + x_start + i = 2 + 0 * N + i := by simp [x_start]
  have e1 : 2 + y_start N + i = 2 + 1 * N + i := by rw [y_start_eq]; omega
  have e2 : 2 + psi_start N + i = 2 + 2 * N + i := by rw [psi_start_eq]
  have e3 : 2 + v_start N + i = 2 + 3 * N + i := by rw [v_start_eq]
  have e4 : 2 + cte_start N + i = 2 + 4 * N + i := by rw [cte_start_eq]
  have e5 : 2 + epsi_start N + i = 2 + 5 * N + i := by rw [epsi_start_eq]
  have main : rd out (2 + x_start + i) = x1 - (x0 + v0 * E.cos psi0 * dt) ∧
      rd out (2 + y_start N + i) = y1 - (y0 + v0 * E.sin psi0 * dt) ∧
      rd out (2 + psi_start N + i) = psi1 - (psi0 + (v0 / Lf) * delta0 * dt) ∧
      rd out (2 + v_start N + i) = v1 - (v0 + a0 * dt) ∧
      rd out (2 + cte_start N + i) =
        cte1 - ((pathValue coeffs x0 - y0) + v0 * E.sin d_psi * dt) ∧
      rd out (2 + epsi_start N + i) = epsi1 - (d_psi + (v0 / Lf) * delta0 * dt) := by
    rw [e0, e1, e2, e3, e4, e5, key 0 (by omega), key 1 (by omega), key 2 (by omega),
      key 3 (by omega), key 4 (by omega), key 5 (by omega), ← f0_eq_pathValue, ← hd]
    exact V
  refine ⟨main, ?_⟩
  intro h0 h1 h2 h3 h4 h5
  obtain ⟨m0, m1, m2, m3, m4, m5⟩ := main
  exact ⟨by rw [m0, h0, sub_self], by rw [m1, h1, sub_self], by rw [m2, h2, sub_self],
    by rw [m3, h3, sub_self], by rw [m4, h4, sub_self], by rw [m5, h5, sub_self]⟩

/-- C9: the cost entry `fg[0]` on return is the sum of the tracking terms over `[0, N)`, the
steering terms over `[0, N-1)` and the steering-rate and acceleration-rate terms over
`[0, N-2)`, with the speed error and the sharpness of the specification; no other term
contributes. -/
theorem cost_eq_spec (E : Elem R) (N : ℕ) (Lf : R) (coeffs vars fg : List R)
    (hN : 2 ≤ N) (hfg : fg.length = 1 + n_constraints N) :
    rd (FG_eval E N Lf coeffs fg vars) 0 =
      (∑ i in Finset.range N,
        (rd vars (epsi_start N + i) ^ 2 + rd vars (cte_start N + i) ^ 2 +
          0.1 * specSpeedError (specSharpness (CalRcurv E coeffs (rd vars (x_start + i))))
            (rd vars (v_start N + i)) ^ 2))
      + (∑ i in Finset.range (N - 1), rd vars (delta_start N + i) ^ 2)
      + (∑ i in Finset.range (N - 2),
        (500 * (rd vars (delta_start N + (i + 1)) - rd vars (delta_start N + i)) ^ 2 +
          (rd vars (a_start N + (i + 1)) - rd vars (a_start N + i)) ^ 2)) := by
  obtain ⟨a, l, rfl⟩ : ∃ a l, fg = a :: l := by
    cases fg with
    | nil => simp [n_constraints] at hfg; omega
    | cons a l => exact ⟨a, l, rfl⟩
  unfold FG_eval
  rw [rd_foldl_restConstraint_frame E N Lf coeffs vars _ (N - 1) 0 (by intros; omega)]
  have hinit : ∀ g : List R, rd (initialConstraints N vars g) 0 = rd g 0 := by
    intro g
    simp only [initialConstraints]
    simp (disch := omega) only [rd_set_ne]
  rw [hinit, costPart_cons, rd_cons_zero, zero_add]
  simp only [sharpness_eq_spec, speedError_eq_spec, add_assoc]

/-- The entries of step 1 for the horizon `2`: the speed residual is `v1 - (v0 + a0 dt)`. -/
theorem residuals_eq_prediction_witness :
    (2 ≤ ([0, 1] : List ℝ).length ∧ 0 < 2 - 1 ∧
        (List.replicate 13 (0 : ℝ)).length = 1 + n_constraints 2) ∧
      rd (FG_eval realElem 2 1 [0, 1] (List.replicate 13 0)
        [1, 0, 2, 0, 3, 0, 4, 0, 5, 0, 6, 0, 0, 0]) (2 + v_start 2 + 0) = 0 - (4 + 0 * dt) :=
  ⟨⟨le_refl 2, Nat.one_pos, rfl⟩,
    (residuals_eq_prediction realElem 2 1 [0, 1] [1, 0, 2, 0, 3, 0, 4, 0, 5, 0, 6, 0, 0, 0]
      (List.replicate 13 0) 0 (le_refl 2) Nat.one_pos rfl).1.2.2.2.1⟩

/-- The cost for the horizon `2` at a concrete decision-variable vector. -/
theorem cost_eq_spec_witness :
    (2 ≤ 2 ∧ (List.replicate 13 (0 : ℝ)).length = 1 + n_constraints 2) ∧
      rd (FG_eval realElem 2 1 [0, 1] (List.replicate 13 0)
        [1, 0, 2, 0, 3, 0, 4, 0, 5, 0, 6, 0, 7, 0]) 0 =
      (∑ i in Finset.range 2,
        (rd [1, 0, 2, 0, 3, 0, 4, 0, 5, 0, 6, 0, 7, 0] (epsi_start 2 + i) ^ 2 +
          rd [1, 0, 2, 0, 3, 0, 4, 0, 5, 0, 6, 0, 7, 0] (cte_start 2 + i) ^ 2 +
          0.1 * specSpeedError (specSharpness (CalRcurv realElem [0, 1]
              (rd [1, 0, 2, 0, 3, 0, 4, 0, 5, 0, 6, 0, 7, 0] (x_start + i))))
            (rd [1, 0, 2, 0, 3, 0, 4, 0, 5, 0, 6, 0, 7, 0] (v_start 2 + i)) ^ 2))
      + (∑ i in Finset.range (2 - 1),
        rd [1, 0, 2, 0, 3, 0, 4, 0, 5, 0, 6, 0, 7, 0] (delta_start 2 + i) ^ 2)
      + (∑ i in Finset.range (2 - 2),
        (500 * (rd [1, 0, 2, 0, 3, 0, 4, 0, 5, 0, 6, 0, 7, 0] (delta_start 2 + (i + 1)) -
            rd [1, 0, 2, 0, 3, 0, 4, 0, 5, 0, 6, 0, 7, 0] (delta_start 2 + i)) ^ 2 +
          (rd [1, 0, 2, 0, 3, 0, 4, 0, 5, 0, 6, 0, 7, 0] (a_start 2 + (i + 1)) -
            rd [1, 0, 2, 0, 3, 0, 4, 0, 5, 0, 6, 0, 7, 0] (a_start 2 + i)) ^ 2)) :=
  ⟨⟨le_refl 2, rfl⟩,
    cost_eq_spec realElem 2 1 [0, 1] [1, 0, 2, 0, 3, 0, 4, 0, 5, 0, 6, 0, 7, 0]
      (List.replicate 13 0) (le_refl 2) rfl⟩

/-! ## MPC::Solve -/

theorem rd_set (l : List R) (i j : ℕ) (a : R) :
    rd (l.set i a) j = if i = j ∧ i < l.length then a else rd l j := by
  by_cases h : i = j
  · subst h
    by_cases h2 : i < l.length
    · rw [rd_set_eq l i a h2, if_pos ⟨rfl, h2⟩]
    · rw [if_neg (fun hh => h2 hh.2)]
      simp [rd, List.getD_eq_getElem?_getD, List.getElem?_set, h2,
        List.getElem?_eq_none (not_lt.mp h2)]
  · rw [rd_set_ne l i j a h, if_neg (fun hh => h hh.1)]

theorem length_foldl_set {α : Type} (l : List α) (is : List ℕ) (a : α) :
    (is.foldl (fun (lb : List α) (i : ℕ) => lb.set i a) l).length = l.length := by
  induction is generalizing l with
  | nil => rfl
  | cons i is ih => rw [List.foldl_cons, ih, List.length_set]

/-- A loop that stores `a` at the indices `s, ..., s + n - 1`. -/
theorem rd_foldl_set_range' (l : List R) (s n k : ℕ) (a : R) :
    rd ((List.range' s n).foldl (fun (lb : List R) (i : ℕ) => lb.set i a) l) k =
      if s ≤ k ∧ k < s + n ∧ k < l.length then a else rd l k := by
  induction n with
  | zero =>
    rw [if_neg (by omega)]
    rfl
  | succ n ih =>
    rw [List.range'_1_concat, List.foldl_append, List.foldl_cons, List.foldl_nil, rd_set, ih,
      length_foldl_set]
    by_cases h1 : s + n = k ∧ s + n < l.length
    · rw [if_pos h1, if_pos (by omega)]
    · rw [if_neg h1]
      by_cases h2 : s ≤ k ∧ k < s + n ∧ k < l.length
      · rw [if_pos h2, if_pos (by omega)]
      · rw [if_neg h2, if_neg (by omega)]

theorem length_vars_lowerbound (N : ℕ) : (Solve.vars_lowerbound R N).length = n_vars N := by
  simp only [Solve.vars_lowerbound, length_foldl_set, List.length_replicate]

theorem length_vars_upperbound (N : ℕ) : (Solve.vars_upperbound R N).length = n_vars N := by
  simp only [Solve.vars_upperbound, length_foldl_set, List.length_replicate]

/-- The lower bound of the variable at index `k`. -/
theorem rd_vars_lowerbound (N k : ℕ) (hN : 2 ≤ N) (hk : k < n_vars N) :
    rd (Solve.vars_lowerbound R N) k =
      if k < delta_start N then -1.0e19 else if k < a_start N then -0.436332 else -100.0 := by
  simp only [Solve.vars_lowerbound, List.range_eq_range', rd_foldl_set_range', length_foldl_set,
    List.length_replicate]
  simp only [delta_start_eq, a_start_eq, n_vars] at hk ⊢
  split_ifs <;> first | rfl | omega

/-- The upper bound of the variable at index `k`. -/
theorem rd_vars_upperbound (N k : ℕ) (hN : 2 ≤ N) (hk : k < n_vars N) :
    rd (Solve.vars_upperbound R N) k =
      if k < delta_start N then 1.0e19 else if k < a_start N then 0.436332 else 100.0 := by
  simp only [Solve.vars_upperbound, List.range_eq_range', rd_foldl_set_range', length_foldl_set,
    List.length_replicate]
  simp only [delta_start_eq, a_start_eq, n_vars] at hk ⊢
  split_ifs <;> first | rfl | omega

/-- The 26 values of the vector `result`. -/
theorem Solve.result_eq (N : ℕ) (x : List R) :
    Solve.result N x =
      [rd x (delta_start N), rd x (a_start N),
        rd x (x_start + 0), rd x (x_start + 1), rd x (x_start + 2), rd x (x_start + 3),
        rd x (x_start + 4), rd x (x_start + 5), rd x (x_start + 6), rd x (x_start + 7),
        rd x (x_start + 8), rd x (x_start + 9),
        rd x (y_start N + 0), rd x (y_start N + 1), rd x (y_start N + 2),
        rd x (y_start N + 3), rd x (y_start N + 4), rd x (y_start N + 5),
        rd x (y_start N + 6), rd x (y_start N + 7), rd x (y_start N + 8),
        rd x (y_start N + 9),
        rd x (psi_start N + 2), rd x (v_start N + 2), rd x (cte_start N + 2),
        rd x (epsi_start N + 2)] := by
  have h : List.range 10 = [0, 1, 2, 3, 4, 5, 6, 7, 8, 9] := by decide
  simp only [Solve.result, h, List.foldl_cons, List.foldl_nil, List.nil_append,
    List.cons_append, List.append_assoc]

theorem rd_replicate (n k : ℕ) (a : R) (h : k < n) : rd (List.replicate n a) k = a := by
  simp [rd, List.getD_eq_getElem?_getD, List.getElem?_replicate, h]

/-- C4: if the solution vector of the solver satisfies the variable bounds that `MPC::Solve`
handed to it, the steering command `result[0]` lies in `[-0.436332, 0.436332]` and the
acceleration command `result[1]` in `[-100, 100]`. -/
theorem Solve_actuators_within_bounds (E : Elem R) (N : ℕ) (Lf : R) (solve : Solver R)
    (state coeffs : List R) (hN : 2 ≤ N)
    (hsol : ∀ k, k < n_vars N →
      rd (Solve.vars_lowerbound R N) k ≤ rd (Solve.solution E N Lf solve state coeffs).x k ∧
      rd (Solve.solution E N Lf solve state coeffs).x k ≤ rd (Solve.vars_upperbound R N) k) :
    (-0.436332 ≤ rd (Solve E N Lf solve state coeffs) 0 ∧
      rd (Solve E N Lf solve state coeffs) 0 ≤ 0.436332) ∧
    (-100 ≤ rd (Solve E N Lf solve state coeffs) 1 ∧
      rd (Solve E N Lf solve state coeffs) 1 ≤ 100) := by
  have hd : delta_start N < n_vars N := by
    simp only [delta_start_eq, n_vars]; omega
  have ha : a_start N < n_vars N := by
    simp only [a_start_eq, n_vars]; omega
  have h0 : rd (Solve E N Lf solve state coeffs) 0 =
      rd (Solve.solution E N Lf solve state coeffs).x (delta_start N) := by
    rw [Solve, Solve.result_eq]; rfl
  have h1 : rd (Solve E N Lf solve state coeffs) 1 =
      rd (Solve.solution E N Lf solve state coeffs).x (a_start N) := by
    rw [Solve, Solve.result_eq]; rfl
  have bd := hsol (delta_start N) hd
  have ba := hsol (a_start N) ha
  have hda : delta_start N < a_start N := by
    simp only [delta_start_eq, a_start_eq]; omega
  have had : ¬ a_start N < delta_start N := not_lt.mpr hda.le
  simp only [rd_vars_lowerbound N _ hN hd, rd_vars_upperbound N _ hN hd, lt_self_iff_false,
    if_false, hda, if_true] at bd
  simp only [rd_vars_lowerbound N _ hN ha, rd_vars_upperbound N _ hN ha, lt_self_iff_false,
    if_false, had] at ba
  rw [h0, h1]
  refine ⟨bd, ?_, ?_⟩
  · have := ba.1
    norm_num at this ⊢
    exact this
  · have := ba.2
    norm_num at this ⊢
    exact this

/-- The configured horizon `N = 25` with a solver that returns the zero vector. -/
theorem Solve_actuators_within_bounds_witness :
    (-0.436332 ≤ rd (Solve realElem N 1
        (fun _ _ _ _ _ _ _ => ⟨status_type.success, List.replicate 198 0, 0⟩)
        [0, 0, 0, 10, 0, 0] [0, 0]) 0 ∧
      rd (Solve realElem N 1
        (fun _ _ _ _ _ _ _ => ⟨status_type.success, List.replicate 198 0, 0⟩)
        [0, 0, 0, 10, 0, 0] [0, 0]) 0 ≤ 0.436332) ∧
    (-100 ≤ rd (Solve realElem N 1
        (fun _ _ _ _ _ _ _ => ⟨status_type.success, List.replicate 198 0, 0⟩)
        [0, 0, 0, 10, 0, 0] [0, 0]) 1 ∧
      rd (Solve realElem N 1
        (fun _ _ _ _ _ _ _ => ⟨status_type.success, List.replicate 198 0, 0⟩)
        [0, 0, 0, 10, 0, 0] [0, 0]) 1 ≤ 100) :=
  Solve_actuators_within_bounds realElem N 1
    (fun _ _ _ _ _ _ _ => ⟨status_type.success, List.replicate 198 0, 0⟩)
    [0, 0, 0, 10, 0, 0] [0, 0] (by decide) (by
      intro k hk
      have hk2 : k < 198 := hk
      have hx : rd (Solve.solution realElem N 1
          (fun _ _ _ _ _ _ _ => ⟨status_type.success, List.replicate 198 0, 0⟩)
          [0, 0, 0, 10, 0, 0] [0, 0]).x k = 0 := rd_replicate 198 k 0 hk2
      rw [hx, rd_vars_lowerbound N k (by decide) hk, rd_vars_upperbound N k (by decide) hk]
      constructor <;> split_ifs <;> norm_num)

/-- C5 at a solver outcome with the status `maxiter_exceeded`: line 306 sets the flag `ok` to
false and the flag is not read again, so `MPC::Solve` returns the same vector as for the
status `success` with the same solution vector, and entries 0 and 1 of that vector are the
steering and the acceleration of the solution vector that was not validated. -/
theorem Solve_failure_not_surfaced :
    status_type.maxiter_exceeded ≠ status_type.success ∧
    Solve.ok realElem N 1
      (fun _ _ _ _ _ _ _ => ⟨status_type.maxiter_exceeded, List.replicate 198 (3 / 10), 0⟩)
      [0, 0, 0, 10, 0, 0] [0, 0] = false ∧
    Solve realElem N 1
      (fun _ _ _ _ _ _ _ => ⟨status_type.maxiter_exceeded, List.replicate 198 (3 / 10), 0⟩)
      [0, 0, 0, 10, 0, 0] [0, 0] =
    Solve realElem N 1
      (fun _ _ _ _ _ _ _ => ⟨status_type.success, List.replicate 198 (3 / 10), 0⟩)
      [0, 0, 0, 10, 0, 0] [0, 0] ∧
    rd (Solve realElem N 1
      (fun _ _ _ _ _ _ _ => ⟨status_type.maxiter_exceeded, List.replicate 198 (3 / 10), 0⟩)
      [0, 0, 0, 10, 0, 0] [0, 0]) 0 = 3 / 10 ∧
    rd (Solve realElem N 1
      (fun _ _ _ _ _ _ _ => ⟨status_type.maxiter_exceeded, List.replicate 198 (3 / 10), 0⟩)
      [0, 0, 0, 10, 0, 0] [0, 0]) 1 = 3 / 10 := by
  refine ⟨by decide, rfl, rfl, ?_, ?_⟩
  · rw [Solve, Solve.result_eq]
    exact rd_replicate 198 (delta_start N) (3 / 10) (by decide)
  · rw [Solve, Solve.result_eq]
    exact rd_replicate 198 (a_start N) (3 / 10) (by decide)

/-- For two or more coefficients the read of line 166 is inside the vector and `psides0` is
the value of the program. -/
theorem psides0_checked_eq_some (coeffs : List R) (x0 : R) (h : 2 ≤ coeffs.length) :
    psides0_checked coeffs x0 = some (psides0 coeffs x0) := by
  unfold psides0_checked psides0
  split_ifs with h2
  · rfl
  · simp [rd, List.getD_eq_getElem?_getD, List.getElem?_eq_getElem (show 1 < coeffs.length by omega)]

/-- For fewer than two coefficients line 166 reads `coeffs[1]` outside the vector. -/
theorem psides0_checked_eq_none (coeffs : List R) (x0 : R) (h : coeffs.length < 2) :
    psides0_checked coeffs x0 = none := by
  unfold psides0_checked
  rw [if_neg (by omega)]
  exact List.getElem?_eq_none (by omega)

/-- The sibling read in `CalRcurv` is guarded by `coeffs.size() == 2` (line 51): it is inside
the vector for every size, and `CalRcurv.dx_dy` is the value of the program. -/
theorem dx_dy_checked_eq_some (coeffs : List R) (x : R) :
    CalRcurv.dx_dy_checked coeffs x = some (CalRcurv.dx_dy coeffs x) := by
  unfold CalRcurv.dx_dy_checked CalRcurv.dx_dy
  split_ifs with h2 h3
  · rfl
  · simp [rd, List.getD_eq_getElem?_getD, List.getElem?_eq_getElem (show 1 < coeffs.length by omega)]
  · rfl

/-- C6 at the empty coefficient sequence: `MPC::Solve` does not reject it. It hands the
problem with the evaluator built from it to the solver and returns what the solver's solution
holds, so two solvers that do not call the evaluator give two different returned vectors; and
once the evaluator is called, line 166 reads `coeffs[1]` outside the vector, for the empty
sequence and for a single coefficient, while the guarded read of `CalRcurv` stays inside. -/
theorem Solve_short_coeffs_not_rejected :
    ([] : List ℝ).length < 2 ∧
    Solve realElem N 1
      (fun _ _ _ _ _ _ _ => ⟨status_type.success, List.replicate 198 1, 0⟩)
      [0, 0, 0, 10, 0, 0] [] ≠
    Solve realElem N 1
      (fun _ _ _ _ _ _ _ => ⟨status_type.success, List.replicate 198 2, 0⟩)
      [0, 0, 0, 10, 0, 0] [] ∧
    psides0_checked ([] : List ℝ) 0 = none ∧
    psides0_checked ([5] : List ℝ) 0 = none ∧
    CalRcurv.dx_dy_checked ([] : List ℝ) 0 = some 0 ∧
    CalRcurv.dx_dy_checked ([5] : List ℝ) 0 = some 0 := by
  refine ⟨by decide, ?_, psides0_checked_eq_none [] 0 (by decide),
    psides0_checked_eq_none [5] 0 (by decide), rfl, rfl⟩
  intro h
  have h0 := congrArg (fun r => rd r 0) h
  simp only [Solve, Solve.result_eq, rd_cons_zero] at h0
  rw [show (Solve.solution realElem N 1
        (fun _ _ _ _ _ _ _ => ⟨status_type.success, List.replicate 198 1, 0⟩)
        [0, 0, 0, 10, 0, 0] []).x = List.replicate 198 1 from rfl,
    show (Solve.solution realElem N 1
        (fun _ _ _ _ _ _ _ => ⟨status_type.success, List.replicate 198 2, 0⟩)
        [0, 0, 0, 10, 0, 0] []).x = List.replicate 198 2 from rfl,
    rd_replicate 198 (delta_start N) 1 (by decide),
    rd_replicate 198 (delta_start N) 2 (by decide)] at h0
  norm_num at h0

/-! ## FG_eval::CalRcurv -/

/-- For more than three coefficients, lines 55-58 evaluate the second derivative of the
reference polynomial. -/
theorem d2x_dy2_eq_pathSecond (coeffs : List R) (x : R) (h : 3 < coeffs.length) :
    CalRcurv.d2x_dy2 coeffs x = pathSecond coeffs x := by
  rw [pathSecond_eq_sum]
  obtain ⟨m, hm⟩ : ∃ m, coeffs.length = m + 1 + 1 := ⟨coeffs.length - 2, by omega⟩
  unfold CalRcurv.d2x_dy2
  rw [if_pos h, foldl_add_range'
      (fun i => (i : R) * ((i : R) - 1) * rd coeffs i * x ^ (i - 2)) 2 (coeffs.length - 2),
    hm, Finset.sum_range_succ', Finset.sum_range_succ']
  simp only [Nat.add_sub_cancel, Nat.cast_zero, mul_zero, zero_mul, add_zero, zero_add,
    Nat.cast_one, sub_self]
  refine Finset.sum_congr rfl (fun i _ => ?_)
  rw [show 2 + i = i + 1 + 1 by omega]
  ring

/-- For three coefficients the second derivative of the reference polynomial is twice the
last coefficient, and line 60 stores the last coefficient. -/
theorem pathSecond_of_length_three (coeffs : List R) (x : R) (h : coeffs.length = 3) :
    pathSecond coeffs x = 2 * rd coeffs 2 ∧ CalRcurv.d2x_dy2 coeffs x = rd coeffs 2 := by
  constructor
  · rw [pathSecond_eq_sum, h]
    simp [Finset.sum_range_succ]
    ring
  · unfold CalRcurv.d2x_dy2
    rw [if_neg (by omega), if_pos h]

/-- For at most two coefficients the second derivative of the reference polynomial is zero,
and so is `d2x_dy2`. -/
theorem pathSecond_of_length_le_two (coeffs : List R) (x : R) (h : coeffs.length ≤ 2) :
    pathSecond coeffs x = 0 ∧ CalRcurv.d2x_dy2 coeffs x = 0 := by
  constructor
  · rw [pathSecond_eq_sum]
    refine Finset.sum_eq_zero (fun i hi => ?_)
    have hi2 : i < 2 := lt_of_lt_of_le (Finset.mem_range.mp hi) h
    interval_cases i <;> simp
  · unfold CalRcurv.d2x_dy2
    rw [if_neg (by omega), if_neg (by omega)]

/-- Lines 55-61 leave `d2x_dy2` at zero exactly when the second derivative of the reference
polynomial is zero. -/
theorem d2x_dy2_eq_zero_iff (coeffs : List R) (x : R) :
    CalRcurv.d2x_dy2 coeffs x = 0 ↔ pathSecond coeffs x = 0 := by
  rcases Nat.lt_or_ge 3 coeffs.length with h | h
  · rw [d2x_dy2_eq_pathSecond coeffs x h]
  · rcases Nat.lt_or_ge coeffs.length 3 with h2 | h2
    · have := pathSecond_of_length_le_two coeffs x (by omega)
      rw [this.1, this.2]
    · have := pathSecond_of_length_three coeffs x (by omega)
      rw [this.1, this.2]
      constructor
      · intro h0; rw [h0, mul_zero]
      · intro h0
        rcases mul_eq_zero.mp h0 with h1 | h1
        · exact absurd h1 two_ne_zero
        · exact h1

/-- For at least two coefficients, lines 47-53 evaluate the first derivative of the reference
polynomial. -/
theorem dx_dy_eq_pathSlope (coeffs : List R) (x : R) (h : 2 ≤ coeffs.length) :
    CalRcurv.dx_dy coeffs x = pathSlope coeffs x := by
  rw [pathSlope_eq_sum]
  obtain ⟨m, hm⟩ : ∃ m, coeffs.length = m + 1 := ⟨coeffs.length - 1, by omega⟩
  unfold CalRcurv.dx_dy
  split_ifs with h2 h3
  · rw [foldl_add_range' (fun i => (i : R) * rd coeffs i * x ^ (i - 1)) 1 (coeffs.length - 1),
      hm, Finset.sum_range_succ']
    simp only [Nat.add_sub_cancel, Nat.cast_zero, mul_zero, zero_mul, add_zero]
    refine Finset.sum_congr rfl (fun i _ => ?_)
    simp only [Nat.add_comm 1 i, Nat.add_sub_cancel]
    ring
  · rw [h3]
    simp [Finset.sum_range_succ]
  · omega

/-- Away from the length 3, and where the second derivative of the reference polynomial is
not zero, `CalRcurv` returns `(1 + f'(x)^2)^1.5 / |f''(x)|`. -/
theorem CalRcurv_eq_of_length_ne_three (E : Elem R) (coeffs : List R) (x : R)
    (h : 2 ≤ coeffs.length) (h3 : coeffs.length ≠ 3) (hx : pathSecond coeffs x ≠ 0) :
    CalRcurv E coeffs x =
      E.rpow (1 + pathSlope coeffs x ^ 2) (3 / 2) / |pathSecond coeffs x| := by
  have hd : CalRcurv.d2x_dy2 coeffs x = pathSecond coeffs x := by
    rcases Nat.lt_or_ge 3 coeffs.length with h4 | h4
    · exact d2x_dy2_eq_pathSecond coeffs x h4
    · have := pathSecond_of_length_le_two coeffs x (by omega)
      rw [this.1, this.2]
  unfold CalRcurv
  simp only [hd, dx_dy_eq_pathSlope coeffs x h, ne_eq, hx, not_false_eq_true, if_true]

/-- For three coefficients, and a last coefficient that is not zero, `CalRcurv` divides by the
absolute value of the last coefficient, which is half of `|f''(x)|`. -/
theorem CalRcurv_of_length_three (E : Elem R) (coeffs : List R) (x : R)
    (h : coeffs.length = 3) (hx : rd coeffs 2 ≠ 0) :
    CalRcurv E coeffs x = E.rpow (1 + pathSlope coeffs x ^ 2) (3 / 2) / |rd coeffs 2| ∧
      |pathSecond coeffs x| = 2 * |rd coeffs 2| := by
  have hd := pathSecond_of_length_three coeffs x h
  constructor
  · unfold CalRcurv
    simp only [hd.2, dx_dy_eq_pathSlope coeffs x (by omega), ne_eq, hx, not_false_eq_true,
      if_true]
  · rw [hd.1, abs_mul, abs_two]

/-- C8: where the second derivative of the reference polynomial is zero, the divisor
`d2x_dy2` is zero, `CalRcurv` takes the branch without a division and returns the sentinel
`1000`, and the sharpness `d` of the cost is `0`; this is so at every `x` for every straight
line `[c0, c1]`. -/
theorem CalRcurv_flat (E : Elem R) (coeffs : List R) (x : R) (h : pathSecond coeffs x = 0) :
    (CalRcurv.d2x_dy2 coeffs x = 0 ∧ CalRcurv E coeffs x = 1000 ∧
      sharpness (CalRcurv E coeffs x) = 0) ∧
    (∀ c0 c1 x1 : R, pathSecond [c0, c1] x1 = 0 ∧ CalRcurv E [c0, c1] x1 = 1000 ∧
      sharpness (CalRcurv E [c0, c1] x1) = 0) := by
  have key : ∀ (cs : List R) (y : R), pathSecond cs y = 0 →
      CalRcurv.d2x_dy2 cs y = 0 ∧ CalRcurv E cs y = 1000 ∧ sharpness (CalRcurv E cs y) = 0 := by
    intro cs y hy
    have hd : CalRcurv.d2x_dy2 cs y = 0 := (d2x_dy2_eq_zero_iff cs y).mpr hy
    have hr : CalRcurv E cs y = 1000 := by
      unfold CalRcurv
      simp only [hd, ne_eq, not_true_eq_false, if_false]
    refine ⟨hd, hr, ?_⟩
    rw [hr]
    unfold sharpness
    rw [if_pos (le_refl _)]
  refine ⟨key coeffs x h, ?_⟩
  intro c0 c1 x1
  have h2 := (pathSecond_of_length_le_two [c0, c1] x1 (le_refl 2)).1
  exact ⟨h2, (key [c0, c1] x1 h2).2⟩

/-- The straight line `y = 1 + 2 x` over the real numbers at `x = 3`. -/
theorem CalRcurv_flat_witness :
    pathSecond ([1, 2] : List ℝ) 3 = 0 ∧ CalRcurv realElem [1, 2] 3 = 1000 ∧
      sharpness (CalRcurv realElem [1, 2] 3) = 0 :=
  ⟨(pathSecond_of_length_le_two [1, 2] 3 (le_refl 2)).1,
    (CalRcurv_flat realElem [1, 2] 3 (pathSecond_of_length_le_two [1, 2] 3 (le_refl 2)).1).1.2⟩

/-- C7 at the quadratic path `y = x^2` and `x = 0`: the first derivative is `0` and the second
derivative is `2`, so the value of the claim is `(1 + 0^2)^1.5 / |2| = 1/2`, while `CalRcurv`
divides by the last coefficient `1` and returns `1`. -/
theorem CalRcurv_quadratic_value :
    ([0, 0, 1] : List ℝ).length = 3 ∧
    pathSlope ([0, 0, 1] : List ℝ) 0 = 0 ∧ pathSecond ([0, 0, 1] : List ℝ) 0 = 2 ∧
    realElem.rpow (1 + pathSlope ([0, 0, 1] : List ℝ) 0 ^ 2) (3 / 2) /
      |pathSecond ([0, 0, 1] : List ℝ) 0| = 1 / 2 ∧
    CalRcurv realElem [0, 0, 1] 0 = 1 := by
  have hs : pathSlope ([0, 0, 1] : List ℝ) 0 = 0 := by
    rw [pathSlope_eq_sum]
    simp [Finset.sum_range_succ, rd]
  have h2 : pathSecond ([0, 0, 1] : List ℝ) 0 = 2 := by
    rw [(pathSecond_of_length_three [0, 0, 1] 0 rfl).1]
    simp [rd]
  refine ⟨rfl, hs, h2, ?_, ?_⟩
  · rw [hs, h2]
    simp [realElem]
  · have hd : CalRcurv.d2x_dy2 ([0, 0, 1] : List ℝ) 0 = 1 := by
      rw [(pathSecond_of_length_three [0, 0, 1] 0 rfl).2]
      simp [rd]
    have hx : CalRcurv.dx_dy ([0, 0, 1] : List ℝ) 0 = 0 := by
      simp [CalRcurv.dx_dy, List.range', rd]
    unfold CalRcurv
    simp only [hd, hx]
    simp [realElem]

/-! ## The heading-error wrap outside `[-3π, 3π]` -/

/-- C15: the wrap adds or subtracts `2π` once and is not a full modulo. For `d > 3π` the
wrapped value is `d - 2π` and is still greater than `π`; for `d < -3π` it is `d + 2π` and is
still less than `-π`. The constant `M_PI` is not negative. -/
theorem wrap_not_normalized (E : Elem R) (d : R) (hpi : 0 ≤ E.M_PI) :
    (3 * E.M_PI < d → wrap E d = d - 2 * E.M_PI ∧ E.M_PI < wrap E d) ∧
    (d < -(3 * E.M_PI) → wrap E d = d + 2 * E.M_PI ∧ wrap E d < -E.M_PI) := by
  constructor
  · intro h
    have h1 : ¬ d < -E.M_PI := by linarith
    have h2 : d > E.M_PI := by linarith
    have hw : wrap E d = d - 2 * E.M_PI := by
      unfold wrap
      rw [if_neg h1, if_pos h2]
    rw [hw]
    exact ⟨rfl, by linarith⟩
  · intro h
    have h1 : d < -E.M_PI := by linarith
    have hw : wrap E d = d + 2 * E.M_PI := by
      unfold wrap
      rw [if_pos h1]
    rw [hw]
    exact ⟨rfl, by linarith⟩

/-- The wrap over the real numbers at the heading differences `10` and `-10`, which are
beyond `3π` and `-3π`. -/
theorem wrap_not_normalized_witness :
    (wrap realElem 10 = 10 - 2 * realElem.M_PI ∧ realElem.M_PI < wrap realElem 10) ∧
    (wrap realElem (-10) = -10 + 2 * realElem.M_PI ∧ wrap realElem (-10) < -realElem.M_PI) :=
  have h3 : 3 * realElem.M_PI < 10 := by
    have := Real.pi_lt_d2
    simp only [realElem]
    linarith
  ⟨(wrap_not_normalized realElem 10 Real.pi_pos.le).1 h3,
    (wrap_not_normalized realElem (-10) Real.pi_pos.le).2 (by linarith)⟩

/-! ## The problem handed to the solver -/

theorem rd_replicate_zero (n k : ℕ) : rd (List.replicate n (0 : R)) k = 0 := by
  by_cases h : k < n
  · exact rd_replicate n k 0 h
  · simp [rd, List.getD_eq_getElem?_getD, List.getElem?_replicate, h]

/-- C11: for `N ≥ 2` both bound vectors have length `n_vars`; the three loops of lines 234-250
run over `0, ..., n_vars - 1` in order, each index once; the bounds are `[-1.0e19, 1.0e19]` on
the state blocks, `[-0.436332, 0.436332]` on the steering block and `[-100, 100]` on the
acceleration block; and the bound vectors the solver receives are the same for every state. -/
theorem vars_bounds_cover (N : ℕ) (hN : 2 ≤ N) :
    ((Solve.vars_lowerbound R N).length = n_vars N ∧
      (Solve.vars_upperbound R N).length = n_vars N) ∧
    (List.range (delta_start N) ++ List.range' (delta_start N) (a_start N - delta_start N) ++
      List.range' (a_start N) (n_vars N - a_start N) = List.range (n_vars N)) ∧
    (∀ k, k < delta_start N →
      rd (Solve.vars_lowerbound R N) k = -1.0e19 ∧ rd (Solve.vars_upperbound R N) k = 1.0e19) ∧
    (∀ k, delta_start N ≤ k → k < a_start N →
      rd (Solve.vars_lowerbound R N) k = -0.436332 ∧
      rd (Solve.vars_upperbound R N) k = 0.436332) ∧
    (∀ k, a_start N ≤ k → k < n_vars N →
      rd (Solve.vars_lowerbound R N) k = -100 ∧ rd (Solve.vars_upperbound R N) k = 100) ∧
    (∀ (E : Elem R) (Lf : R) (state coeffs : List R),
      (Solve.solution E N Lf (fun _ _ xl xu _ _ _ => ⟨status_type.success, xl ++ xu, 0⟩)
        state coeffs).x = Solve.vars_lowerbound R N ++ Solve.vars_upperbound R N) := by
  have hda : delta_start N < a_start N := by
    simp only [delta_start_eq, a_start_eq]; omega
  have han : a_start N < n_vars N := by
    simp only [a_start_eq, n_vars]; omega
  refine ⟨⟨length_vars_lowerbound N, length_vars_upperbound N⟩, ?_, ?_, ?_, ?_, ?_⟩
  · rw [List.range_eq_range', List.range_eq_range', List.append_assoc]
    have h1 := List.range'_append (delta_start N) (a_start N - delta_start N)
      (n_vars N - a_start N) 1
    have h2 := List.range'_append 0 (delta_start N)
      (n_vars N - a_start N + (a_start N - delta_start N)) 1
    rw [one_mul] at h1 h2
    rw [show delta_start N + (a_start N - delta_start N) = a_start N by omega] at h1
    rw [zero_add] at h2
    rw [h1, h2]
    congr 1
    omega
  · intro k hk
    simp only [rd_vars_lowerbound N k hN (by omega), rd_vars_upperbound N k hN (by omega), hk,
      if_true, and_self]
  · intro k hk1 hk2
    have h1 : ¬ k < delta_start N := by omega
    simp only [rd_vars_lowerbound N k hN (by omega), rd_vars_upperbound N k hN (by omega), h1,
      if_false, hk2, if_true, and_self]
  · intro k hk1 hk2
    have h1 : ¬ k < delta_start N := by omega
    have h2 : ¬ k < a_start N := by omega
    simp only [rd_vars_lowerbound N k hN hk2, rd_vars_upperbound N k hN hk2, h1, h2, if_false]
    constructor <;> norm_num
  · intro E Lf state coeffs
    rfl

/-- The bounds of the configured horizon `N = 25`: index `0` is a state variable, index `150`
a steering variable and index `197` an acceleration variable. -/
theorem vars_bounds_cover_witness :
    (rd (Solve.vars_lowerbound ℝ N) 0 = -1.0e19 ∧ rd (Solve.vars_upperbound ℝ N) 0 = 1.0e19) ∧
    (rd (Solve.vars_lowerbound ℝ N) 150 = -0.436332 ∧
      rd (Solve.vars_upperbound ℝ N) 150 = 0.436332) ∧
    (rd (Solve.vars_lowerbound ℝ N) 197 = -100 ∧ rd (Solve.vars_upperbound ℝ N) 197 = 100) :=
  ⟨(vars_bounds_cover N (by decide)).2.2.1 0 (by decide),
    (vars_bounds_cover N (by decide)).2.2.2.1 150 (by decide) (by decide),
    (vars_bounds_cover N (by decide)).2.2.2.2.1 197 (by decide) (by decide)⟩

/-- The entries of the vector `vars` handed to the solver. -/
theorem rd_Solve_vars (N : ℕ) (state : List R) (hN : 2 ≤ N) (k : ℕ) :
    rd (Solve.vars N state) k =
      if k = x_start then rd state 0
      else if k = y_start N then rd state 1
      else if k = psi_start N then rd state 2
      else if k = v_start N then rd state 3
      else if k = cte_start N then rd state 4
      else if k = epsi_start N then rd state 5
      else 0 := by
  simp only [Solve.vars, rd_set, List.length_set, length_foldl_set, List.length_replicate,
    List.range_eq_range', rd_foldl_set_range', rd_replicate_zero, ite_self, y_start_eq,
    psi_start_eq, v_start_eq, cte_start_eq, epsi_start_eq, x_start, n_vars]
  split_ifs <;> first | rfl | omega

/-- The entries of the vector `constraints_lowerbound` handed to the solver. -/
theorem rd_constraints_lowerbound (N : ℕ) (state : List R) (hN : 2 ≤ N) (k : ℕ) :
    rd (Solve.constraints_lowerbound N state) k =
      if k = x_start then rd state 0
      else if k = y_start N then rd state 1
      else if k = psi_start N then rd state 2
      else if k = v_start N then rd state 3
      else if k = cte_start N then rd state 4
      else if k = epsi_start N then rd state 5
      else 0 := by
  simp only [Solve.constraints_lowerbound, rd_set, List.length_set, length_foldl_set,
    List.length_replicate, List.range_eq_range', rd_foldl_set_range', rd_replicate_zero,
    ite_self, y_start_eq, psi_start_eq, v_start_eq, cte_start_eq, epsi_start_eq, x_start,
    n_constraints]
  split_ifs <;> first | rfl | omega

/-- The two vectors of constraint bounds are built by the same assignments. -/
theorem constraints_upperbound_eq (N : ℕ) (state : List R) :
    Solve.constraints_upperbound N state = Solve.constraints_lowerbound N state := rfl

/-- C12: for `N ≥ 2` the constraint bounds have length `6N`, the lower and the upper bound
agree at every index, at the six initial-state indices they are the components of the state,
and at every other index they are `0`. -/
theorem constraints_bounds_pinned (N : ℕ) (state : List R) (hN : 2 ≤ N) :
    ((Solve.constraints_lowerbound N state).length = 6 * N ∧
      (Solve.constraints_upperbound N state).length = 6 * N) ∧
    (∀ k, rd (Solve.constraints_lowerbound N state) k =
      rd (Solve.constraints_upperbound N state) k) ∧
    (rd (Solve.constraints_lowerbound N state) x_start = rd state 0 ∧
      rd (Solve.constraints_lowerbound N state) (y_start N) = rd state 1 ∧
      rd (Solve.constraints_lowerbound N state) (psi_start N) = rd state 2 ∧
      rd (Solve.constraints_lowerbound N state) (v_start N) = rd state 3 ∧
      rd (Solve.constraints_lowerbound N state) (cte_start N) = rd state 4 ∧
      rd (Solve.constraints_lowerbound N state) (epsi_start N) = rd state 5) ∧
    (∀ k, k ≠ x_start → k ≠ y_start N → k ≠ psi_start N → k ≠ v_start N → k ≠ cte_start N →
      k ≠ epsi_start N →
      rd (Solve.constraints_lowerbound N state) k = 0 ∧
      rd (Solve.constraints_upperbound N state) k = 0) := by
  have hlen : (Solve.constraints_lowerbound N state).length = 6 * N := by
    simp only [Solve.constraints_lowerbound, List.length_set, length_foldl_set,
      List.length_replicate, n_constraints]
  refine ⟨⟨hlen, by rw [constraints_upperbound_eq]; exact hlen⟩, ?_, ?_, ?_⟩
  · intro k
    rw [constraints_upperbound_eq]
  · simp only [rd_constraints_lowerbound N state hN, y_start_eq, psi_start_eq, v_start_eq,
      cte_start_eq, epsi_start_eq, x_start]
    refine ⟨?_, ?_, ?_, ?_, ?_, ?_⟩ <;> split_ifs <;> first | rfl | omega
  · intro k h0 h1 h2 h3 h4 h5
    rw [constraints_upperbound_eq, rd_constraints_lowerbound N state hN, if_neg h0, if_neg h1,
      if_neg h2, if_neg h3, if_neg h4, if_neg h5]
    exact ⟨rfl, rfl⟩

/-- The constraint bounds of the configured horizon `N = 25` for a concrete state. -/
theorem constraints_bounds_pinned_witness :
    rd (Solve.constraints_lowerbound N ([1, 2, 3, 4, 5, 6] : List ℝ)) (v_start N) = 4 ∧
      rd (Solve.constraints_upperbound N ([1, 2, 3, 4, 5, 6] : List ℝ)) (v_start N) = 4 :=
  ⟨(constraints_bounds_pinned N [1, 2, 3, 4, 5, 6] (by decide)).2.2.1.2.2.2.1,
    ((constraints_bounds_pinned N [1, 2, 3, 4, 5, 6] (by decide)).2.1 (v_start N)).symm.trans
      (constraints_bounds_pinned N [1, 2, 3, 4, 5, 6] (by decide)).2.2.1.2.2.2.1⟩

/-- C13: for `N ≥ 2` the initial guess has length `n_vars = 6N + 2(N-1)`, holds the six
components of the state at the six step-0 indices and `0` at every other index. -/
theorem initial_guess (N : ℕ) (state : List R) (hN : 2 ≤ N) :
    (Solve.vars N state).length = n_vars N ∧ n_vars N = 6 * N + 2 * (N - 1) ∧
    (rd (Solve.vars N state) x_start = rd state 0 ∧
      rd (Solve.vars N state) (y_start N) = rd state 1 ∧
      rd (Solve.vars N state) (psi_start N) = rd state 2 ∧
      rd (Solve.vars N state) (v_start N) = rd state 3 ∧
      rd (Solve.vars N state) (cte_start N) = rd state 4 ∧
      rd (Solve.vars N state) (epsi_start N) = rd state 5) ∧
    (∀ k, k ≠ x_start → k ≠ y_start N → k ≠ psi_start N → k ≠ v_start N → k ≠ cte_start N →
      k ≠ epsi_start N → rd (Solve.vars N state) k = 0) ∧
    (∀ (E : Elem R) (Lf : R) (coeffs : List R),
      (Solve.solution E N Lf (fun _ xi _ _ _ _ _ => ⟨status_type.success, xi, 0⟩)
        state coeffs).x = Solve.vars N state) := by
  refine ⟨?_, rfl, ?_, ?_, ?_⟩
  · simp only [Solve.vars, List.length_set, length_foldl_set, List.length_replicate]
  · simp only [rd_Solve_vars N state hN, y_start_eq, psi_start_eq, v_start_eq,
      cte_start_eq, epsi_start_eq, x_start]
    refine ⟨?_, ?_, ?_, ?_, ?_, ?_⟩ <;> split_ifs <;> first | rfl | omega
  · intro k h0 h1 h2 h3 h4 h5
    rw [rd_Solve_vars N state hN, if_neg h0, if_neg h1, if_neg h2, if_neg h3, if_neg h4,
      if_neg h5]
  · intro E Lf coeffs
    rfl

/-- The initial guess of the configured horizon `N = 25` for a concrete state. -/
theorem initial_guess_witness :
    (Solve.vars N ([1, 2, 3, 4, 5, 6] : List ℝ)).length = 198 ∧
      rd (Solve.vars N ([1, 2, 3, 4, 5, 6] : List ℝ)) (psi_start N) = 3 ∧
      rd (Solve.vars N ([1, 2, 3, 4, 5, 6] : List ℝ)) (delta_start N) = 0 :=
  ⟨(initial_guess N [1, 2, 3, 4, 5, 6] (by decide)).1,
    (initial_guess N [1, 2, 3, 4, 5, 6] (by decide)).2.2.1.2.2.1,
    (initial_guess N [1, 2, 3, 4, 5, 6] (by decide)).2.2.2.1 (delta_start N)
      (by decide) (by decide) (by decide) (by decide) (by decide) (by decide)⟩

/-- C14: `MPC::Solve` returns exactly 26 values: entry 0 is the solved steering at step 0,
entry 1 the solved acceleration at step 0, entries 2..11 the solved `x` of steps 0..9 in
order, entries 12..21 the solved `y` of steps 0..9 in order, and entries 22..25 the solved
psi, v, cte and epsi at step 2, which is `2 dt = 0.1` ahead. -/
theorem Solve_result_entries (E : Elem R) (N : ℕ) (Lf : R) (solve : Solver R)
    (state coeffs : List R) :
    (Solve E N Lf solve state coeffs).length = 26 ∧
    rd (Solve E N Lf solve state coeffs) 0 =
      rd (Solve.solution E N Lf solve state coeffs).x (delta_start N) ∧
    rd (Solve E N Lf solve state coeffs) 1 =
      rd (Solve.solution E N Lf solve state coeffs).x (a_start N) ∧
    (∀ i, i < 10 → rd (Solve E N Lf solve state coeffs) (2 + i) =
      rd (Solve.solution E N Lf solve state coeffs).x (x_start + i)) ∧
    (∀ i, i < 10 → rd (Solve E N Lf solve state coeffs) (12 + i) =
      rd (Solve.solution E N Lf solve state coeffs).x (y_start N + i)) ∧
    rd (Solve E N Lf solve state coeffs) 22 =
      rd (Solve.solution E N Lf solve state coeffs).x (psi_start N + 2) ∧
    rd (Solve E N Lf solve state coeffs) 23 =
      rd (Solve.solution E N Lf solve state coeffs).x (v_start N + 2) ∧
    rd (Solve E N Lf solve state coeffs) 24 =
      rd (Solve.solution E N Lf solve state coeffs).x (cte_start N + 2) ∧
    rd (Solve E N Lf solve state coeffs) 25 =
      rd (Solve.solution E N Lf solve state coeffs).x (epsi_start N + 2) ∧
    2 * (dt : R) = 0.1 := by
  have h : Solve E N Lf solve state coeffs =
      Solve.result N (Solve.solution E N Lf solve state coeffs).x := rfl
  rw [h, Solve.result_eq]
  refine ⟨rfl, rfl, rfl, ?_, ?_, rfl, rfl, rfl, rfl, ?_⟩
  · intro i hi
    interval_cases i <;> rfl
  · intro i hi
    interval_cases i <;> rfl
  · unfold dt
    norm_num

/-! ## The residuals and the cost on return -/

/-- The six entries of step `i + 1` on return, in the terms of the program. -/
theorem rd_FG_eval_values (E : Elem R) (N : ℕ) (Lf : R) (coeffs vars fg : List R) (i : ℕ)
    (hi : i < N - 1) (hfg : fg.length = 1 + 6 * N) :
    rd (FG_eval E N Lf coeffs fg vars) (2 + x_start + i) =
      rd vars (x_start + i + 1) - (rd vars (x_start + i) +
        rd vars (v_start N + i) * E.cos (rd vars (psi_start N + i)) * dt) ∧
    rd (FG_eval E N Lf coeffs fg vars) (2 + y_start N + i) =
      rd vars (y_start N + i + 1) - (rd vars (y_start N + i) +
        rd vars (v_start N + i) * E.sin (rd vars (psi_start N + i)) * dt) ∧
    rd (FG_eval E N Lf coeffs fg vars) (2 + psi_start N + i) =
      rd vars (psi_start N + i + 1) - (rd vars (psi_start N + i) +
        rd vars (v_start N + i) / Lf * rd vars (delta_start N + i) * dt) ∧
    rd (FG_eval E N Lf coeffs fg vars) (2 + v_start N + i) =
      rd vars (v_start N + i + 1) - (rd vars (v_start N + i) + rd vars (a_start N + i) * dt) ∧
    rd (FG_eval E N Lf coeffs fg vars) (2 + cte_start N + i) =
      rd vars (cte_start N + i + 1) - ((f0 coeffs (rd vars (x_start + i)) -
        rd vars (y_start N + i)) + rd vars (v_start N + i) *
          E.sin (d_psi0 E coeffs (rd vars (x_start + i)) (rd vars (psi_start N + i))) * dt) ∧
    rd (FG_eval E N Lf coeffs fg vars) (2 + epsi_start N + i) =
      rd vars (epsi_start N + i + 1) -
        (d_psi0 E coeffs (rd vars (x_start + i)) (rd vars (psi_start N + i)) +
          rd vars (v_start N + i) / Lf * rd vars (delta_start N + i) * dt) := by
  have hlen : (initialConstraints N vars (costPart E N coeffs vars fg)).length = 1 + 6 * N := by
    rw [length_FG_eval_pre, hfg]
  have V := rd_restConstraint_values E N Lf coeffs vars _ i (by omega) hlen
  have key : ∀ c, c < 6 → rd (FG_eval E N Lf coeffs fg vars) (2 + c * N + i) =
      rd (restConstraint E N Lf coeffs vars
        (initialConstraints N vars (costPart E N coeffs vars fg)) i) (2 + c * N + i) :=
    fun c hc1 => rd_FG_eval_rest E N Lf coeffs vars fg i c hi hc1 hfg
  have e0 : 2 + x_start + i = 2 + 0 * N + i := by simp [x_start]
  have e1 : 2 + y_start N + i = 2 + 1 * N + i := by rw [y_start_eq]; omega
  have e2 : 2 + psi_start N + i = 2 + 2 * N + i := by rw [psi_start_eq]
  have e3 : 2 + v_start N + i = 2 + 3 * N + i := by rw [v_start_eq]
  have e4 : 2 + cte_start N + i = 2 + 4 * N + i := by rw [cte_start_eq]
  have e5 : 2 + epsi_start N + i = 2 + 5 * N + i := by rw [epsi_start_eq]
  rw [e0, e1, e2, e3, e4, e5, key 0 (by omega), key 1 (by omega), key 2 (by omega),
    key 3 (by omega), key 4 (by omega), key 5 (by omega)]
  exact V

/-- The cost entry on return, in the terms of the program. -/
theorem rd_FG_eval_cost (E : Elem R) (N : ℕ) (Lf : R) (coeffs vars fg : List R)
    (hfg : fg.length = 1 + 6 * N) :
    rd (FG_eval E N Lf coeffs fg vars) 0 =
      (∑ i in Finset.range N,
        (rd vars (epsi_start N + i) ^ 2 + rd vars (cte_start N + i) ^ 2 +
          0.1 * speedError (sharpness (CalRcurv E coeffs (rd vars (x_start + i))))
            (rd vars (v_start N + i)) ^ 2))
      + (∑ i in Finset.range (N - 1), rd vars (delta_start N + i) ^ 2)
      + (∑ i in Finset.range (N - 2),
        (500 * (rd vars (delta_start N + i + 1) - rd vars (delta_start N + i)) ^ 2 +
          (rd vars (a_start N + i + 1) - rd vars (a_start N + i)) ^ 2)) := by
  obtain ⟨a, l, rfl⟩ : ∃ a l, fg = a :: l := by
    cases fg with
    | nil => simp at hfg; omega
    | cons a l => exact ⟨a, l, rfl⟩
  unfold FG_eval
  rw [rd_foldl_restConstraint_frame E N Lf coeffs vars _ (N - 1) 0 (by intros; omega)]
  have hinit : ∀ g : List R, rd (initialConstraints N vars g) 0 = rd g 0 := by
    intro g
    simp only [initialConstraints]
    simp (disch := omega) only [rd_set_ne]
  rw [hinit, costPart_cons, rd_cons_zero, zero_add]

/-- C16: the six residuals of step `i + 1` couple adjacent timesteps only. Two
decision-variable vectors that agree on x, y, psi, v, delta and a at step `i` and on x, y,
psi, v, cte and epsi at step `i + 1` give equal residuals at step `i + 1` for the same
coefficients, whatever their other entries and whatever `fg` held before the call. -/
theorem residuals_adjacent_only (E : Elem R) (N : ℕ) (Lf : R)
    (coeffs vars vars1 fg fg1 : List R) (i : ℕ) (hi : i < N - 1)
    (hfg : fg.length = 1 + n_constraints N) (hfg1 : fg1.length = 1 + n_constraints N)
    (hx0 : rd vars1 (x_start + i) = rd vars (x_start + i))
    (hy0 : rd vars1 (y_start N + i) = rd vars (y_start N + i))
    (hpsi0 : rd vars1 (psi_start N + i) = rd vars (psi_start N + i))
    (hv0 : rd vars1 (v_start N + i) = rd vars (v_start N + i))
    (hdelta0 : rd vars1 (delta_start N + i) = rd vars (delta_start N + i))
    (ha0 : rd vars1 (a_start N + i) = rd vars (a_start N + i))
    (hx1 : rd vars1 (x_start + i + 1) = rd vars (x_start + i + 1))
    (hy1 : rd vars1 (y_start N + i + 1) = rd vars (y_start N + i + 1))
    (hpsi1 : rd vars1 (psi_start N + i + 1) = rd vars (psi_start N + i + 1))
    (hv1 : rd vars1 (v_start N + i + 1) = rd vars (v_start N + i + 1))
    (hcte1 : rd vars1 (cte_start N + i + 1) = rd vars (cte_start N + i + 1))
    (hepsi1 : rd vars1 (epsi_start N + i + 1) = rd vars (epsi_start N + i + 1)) :
    rd (FG_eval E N Lf coeffs fg1 vars1) (2 + x_start + i) =
      rd (FG_eval E N Lf coeffs fg vars) (2 + x_start + i) ∧
    rd (FG_eval E N Lf coeffs fg1 vars1) (2 + y_start N + i) =
      rd (FG_eval E N Lf coeffs fg vars) (2 + y_start N + i) ∧
    rd (FG_eval E N Lf coeffs fg1 vars1) (2 + psi_start N + i) =
      rd (FG_eval E N Lf coeffs fg vars) (2 + psi_start N + i) ∧
    rd (FG_eval E N Lf coeffs fg1 vars1) (2 + v_start N + i) =
      rd (FG_eval E N Lf coeffs fg vars) (2 + v_start N + i) ∧
    rd (FG_eval E N Lf coeffs fg1 vars1) (2 + cte_start N + i) =
      rd (FG_eval E N Lf coeffs fg vars) (2 + cte_start N + i) ∧
    rd (FG_eval E N Lf coeffs fg1 vars1) (2 + epsi_start N + i) =
      rd (FG_eval E N Lf coeffs fg vars) (2 + epsi_start N + i) := by
  obtain ⟨a0, a1, a2, a3, a4, a5⟩ := rd_FG_eval_values E N Lf coeffs vars fg i hi hfg
  obtain ⟨b0, b1, b2, b3, b4, b5⟩ := rd_FG_eval_values E N Lf coeffs vars1 fg1 i hi hfg1
  rw [a0, a1, a2, a3, a4, a5, b0, b1, b2, b3, b4, b5, hx0, hy0, hpsi0, hv0, hdelta0, ha0, hx1,
    hy1, hpsi1, hv1, hcte1, hepsi1]
  exact ⟨rfl, rfl, rfl, rfl, rfl, rfl⟩

/-- Two vectors for the horizon `3` that agree on steps 0 and 1 where the residuals of step 1
read them, and differ at step 2 and at the cte and epsi of step 0. -/
theorem residuals_adjacent_only_witness :
    rd (FG_eval realElem 3 1 [0, 1] (List.replicate 19 1)
        [0, 0, 5, 0, 0, 5, 0, 0, 5, 0, 0, 5, 7, 0, 5, 7, 0, 5, 0, 5, 0, 5])
        (2 + cte_start 3 + 0) =
      rd (FG_eval realElem 3 1 [0, 1] (List.replicate 19 0) (List.replicate 22 0))
        (2 + cte_start 3 + 0) ∧
    rd (FG_eval realElem 3 1 [0, 1] (List.replicate 19 1)
        [0, 0, 5, 0, 0, 5, 0, 0, 5, 0, 0, 5, 7, 0, 5, 7, 0, 5, 0, 5, 0, 5])
        (2 + epsi_start 3 + 0) =
      rd (FG_eval realElem 3 1 [0, 1] (List.replicate 19 0) (List.replicate 22 0))
        (2 + epsi_start 3 + 0) :=
  (residuals_adjacent_only realElem 3 1 [0, 1] (List.replicate 22 0)
    [0, 0, 5, 0, 0, 5, 0, 0, 5, 0, 0, 5, 7, 0, 5, 7, 0, 5, 0, 5, 0, 5]
    (List.replicate 19 0) (List.replicate 19 1) 0 (by decide) rfl rfl
    rfl rfl rfl rfl rfl rfl rfl rfl rfl rfl rfl rfl).2.2.2.2

/-- C20: the cost `fg[0]` on return is non-negative, and it is `0` only if every cte and
every epsi is `0`, every delta is `0`, and all acceleration variables are equal to one
another. -/
theorem cost_nonneg (E : Elem R) (N : ℕ) (Lf : R) (coeffs vars fg : List R)
    (hN : 2 ≤ N) (hfg : fg.length = 1 + n_constraints N) :
    0 ≤ rd (FG_eval E N Lf coeffs fg vars) 0 ∧
    (rd (FG_eval E N Lf coeffs fg vars) 0 = 0 →
      (∀ i, i < N → rd vars (cte_start N + i) = 0 ∧ rd vars (epsi_start N + i) = 0) ∧
      (∀ i, i < N - 1 → rd vars (delta_start N + i) = 0) ∧
      (∀ i j, i < N - 1 → j < N - 1 → rd vars (a_start N + i) = rd vars (a_start N + j))) := by
  rw [rd_FG_eval_cost E N Lf coeffs vars fg hfg]
  have h01 : (0 : R) ≤ 0.1 := by norm_num
  have hA : ∀ i ∈ Finset.range N, (0 : R) ≤
      rd vars (epsi_start N + i) ^ 2 + rd vars (cte_start N + i) ^ 2 +
        0.1 * speedError (sharpness (CalRcurv E coeffs (rd vars (x_start + i))))
          (rd vars (v_start N + i)) ^ 2 := by
    intro i _
    have := mul_nonneg h01 (sq_nonneg (speedError (sharpness (CalRcurv E coeffs
      (rd vars (x_start + i)))) (rd vars (v_start N + i))))
    have := sq_nonneg (rd vars (epsi_start N + i))
    have := sq_nonneg (rd vars (cte_start N + i))
    linarith
  have hB : ∀ i ∈ Finset.range (N - 1), (0 : R) ≤ rd vars (delta_start N + i) ^ 2 :=
    fun i _ => sq_nonneg _
  have hC : ∀ i ∈ Finset.range (N - 2), (0 : R) ≤
      500 * (rd vars (delta_start N + i + 1) - rd vars (delta_start N + i)) ^ 2 +
        (rd vars (a_start N + i + 1) - rd vars (a_start N + i)) ^ 2 := by
    intro i _
    have := sq_nonneg (rd vars (delta_start N + i + 1) - rd vars (delta_start N + i))
    have := sq_nonneg (rd vars (a_start N + i + 1) - rd vars (a_start N + i))
    linarith
  have sA := Finset.sum_nonneg hA
  have sB := Finset.sum_nonneg hB
  have sC := Finset.sum_nonneg hC
  refine ⟨by linarith, ?_⟩
  intro h0
  have zA := (Finset.sum_eq_zero_iff_of_nonneg hA).mp (by linarith)
  have zB := (Finset.sum_eq_zero_iff_of_nonneg hB).mp (by linarith)
  have zC := (Finset.sum_eq_zero_iff_of_nonneg hC).mp (by linarith)
  refine ⟨?_, ?_, ?_⟩
  · intro i hi
    have hz := zA i (Finset.mem_range.mpr hi)
    have h1 := mul_nonneg h01 (sq_nonneg (speedError (sharpness (CalRcurv E coeffs
      (rd vars (x_start + i)))) (rd vars (v_start N + i))))
    have h2 := sq_nonneg (rd vars (epsi_start N + i))
    have h3 := sq_nonneg (rd vars (cte_start N + i))
    have hc : rd vars (cte_start N + i) ^ 2 = 0 := by linarith
    have he : rd vars (epsi_start N + i) ^ 2 = 0 := by linarith
    exact ⟨pow_eq_zero_iff (two_ne_zero) |>.mp hc, pow_eq_zero_iff (two_ne_zero) |>.mp he⟩
  · intro i hi
    exact pow_eq_zero_iff (two_ne_zero) |>.mp (zB i (Finset.mem_range.mpr hi))
  · have step : ∀ i, i < N - 2 → rd vars (a_start N + i + 1) = rd vars (a_start N + i) := by
      intro i hi
      have hz := zC i (Finset.mem_range.mpr hi)
      have h1 := sq_nonneg (rd vars (delta_start N + i + 1) - rd vars (delta_start N + i))
      have h2 := sq_nonneg (rd vars (a_start N + i + 1) - rd vars (a_start N + i))
      have ha : (rd vars (a_start N + i + 1) - rd vars (a_start N + i)) ^ 2 = 0 := by linarith
      exact sub_eq_zero.mp (pow_eq_zero_iff (two_ne_zero) |>.mp ha)
    have all0 : ∀ i, i < N - 1 → rd vars (a_start N + i) = rd vars (a_start N + 0) := by
      intro i
      induction i with
      | zero => intro _; rfl
      | succ n ih =>
        intro hn
        rw [← ih (by omega)]
        exact step n (by omega)
    intro i j hi hj
    rw [all0 i hi, all0 j hj]

/-- The cost for the horizon `2` at a concrete decision-variable vector is not negative. -/
theorem cost_nonneg_witness :
    0 ≤ rd (FG_eval realElem 2 1 [0, 1] (List.replicate 13 0)
      [1, 0, 2, 0, 3, 0, 4, 0, 5, 0, 6, 0, 7, 0]) 0 :=
  (cost_nonneg realElem 2 1 [0, 1] [1, 0, 2, 0, 3, 0, 4, 0, 5, 0, 6, 0, 7, 0]
    (List.replicate 13 0) (le_refl 2) rfl).1

/-! ## The constraint indices -/

theorem mem_constraintIndices (N k : ℕ) :
    k ∈ FG_eval.constraintIndices N ↔
      (k = 1 ∨ k = 1 + N ∨ k = 1 + 2 * N ∨ k = 1 + 3 * N ∨ k = 1 + 4 * N ∨ k = 1 + 5 * N) ∨
      ∃ i, i < N - 1 ∧ (k = 2 + i ∨ k = 2 + N + i ∨ k = 2 + 2 * N + i ∨ k = 2 + 3 * N + i ∨
        k = 2 + 4 * N + i ∨ k = 2 + 5 * N + i) := by
  simp only [FG_eval.constraintIndices, initialConstraints.indices, restConstraint.indices,
    List.mem_append, List.mem_flatMap, List.mem_range, List.mem_cons, List.not_mem_nil,
    or_false, y_start_eq, psi_start_eq, v_start_eq, cte_start_eq, epsi_start_eq, x_start,
    add_zero]

/-- The constraint indices are the indices from `1` to `6N`. -/
theorem mem_constraintIndices_iff (N k : ℕ) (hN : 2 ≤ N) :
    k ∈ FG_eval.constraintIndices N ↔ 1 ≤ k ∧ k ≤ 6 * N := by
  rw [mem_constraintIndices]
  constructor
  · rintro (h | ⟨i, hi, h⟩) <;> omega
  · rintro ⟨h1, h2⟩
    by_cases c0 : k = 1 ∨ k = 1 + N ∨ k = 1 + 2 * N ∨ k = 1 + 3 * N ∨ k = 1 + 4 * N ∨
        k = 1 + 5 * N
    · exact Or.inl c0
    · right
      rcases (by omega : k < 1 + N ∨ (1 + N < k ∧ k < 1 + 2 * N) ∨
          (1 + 2 * N < k ∧ k < 1 + 3 * N) ∨ (1 + 3 * N < k ∧ k < 1 + 4 * N) ∨
          (1 + 4 * N < k ∧ k < 1 + 5 * N) ∨ 1 + 5 * N < k) with h | h | h | h | h | h
      · exact ⟨k - 2, by omega, Or.inl (by omega)⟩
      · exact ⟨k - 2 - N, by omega, Or.inr (Or.inl (by omega))⟩
      · exact ⟨k - 2 - 2 * N, by omega, Or.inr (Or.inr (Or.inl (by omega)))⟩
      · exact ⟨k - 2 - 3 * N, by omega, Or.inr (Or.inr (Or.inr (Or.inl (by omega))))⟩
      · exact ⟨k - 2 - 4 * N, by omega,
          Or.inr (Or.inr (Or.inr (Or.inr (Or.inl (by omega)))))⟩
      · exact ⟨k - 2 - 5 * N, by omega,
          Or.inr (Or.inr (Or.inr (Or.inr (Or.inr (by omega)))))⟩

theorem length_constraintIndices (N : ℕ) (hN : 2 ≤ N) :
    (FG_eval.constraintIndices N).length = 6 * N := by
  have h : ∀ n, ((List.range n).flatMap (restConstraint.indices N)).length = 6 * n := by
    intro n
    induction n with
    | zero => rfl
    | succ n ih =>
      rw [List.range_succ, List.flatMap_append, List.length_append, ih]
      simp [restConstraint.indices]
      omega
  rw [FG_eval.constraintIndices, List.length_append, h]
  simp only [initialConstraints.indices, List.length_cons, List.length_nil]
  omega

theorem nodup_constraintIndices (N : ℕ) (hN : 2 ≤ N) :
    (FG_eval.constraintIndices N).Nodup := by
  have hset : (FG_eval.constraintIndices N).toFinset = Finset.Icc 1 (6 * N) := by
    ext k
    rw [List.mem_toFinset, mem_constraintIndices_iff N k hN, Finset.mem_Icc]
  have hcard : (FG_eval.constraintIndices N).dedup.length = 6 * N := by
    rw [← List.card_toFinset, hset, Nat.card_Icc]
    omega
  have hd : (FG_eval.constraintIndices N).dedup = FG_eval.constraintIndices N :=
    (List.dedup_sublist _).eq_of_length (by rw [hcard, length_constraintIndices N hN])
  exact List.dedup_eq_self.mp hd

/-- The constraint assignments of `operator()` leave every entry outside the constraint
indices as the cost part left it. -/
theorem rd_FG_eval_frame (E : Elem R) (N : ℕ) (Lf : R) (coeffs vars fg : List R) (k : ℕ)
    (hk : k ∉ FG_eval.constraintIndices N) :
    rd (FG_eval E N Lf coeffs fg vars) k = rd (costPart E N coeffs vars fg) k := by
  rw [mem_constraintIndices] at hk
  have h1 : ¬ (k = 1 ∨ k = 1 + N ∨ k = 1 + 2 * N ∨ k = 1 + 3 * N ∨ k = 1 + 4 * N ∨
      k = 1 + 5 * N) := fun h => hk (Or.inl h)
  have h2 : ∀ i, i < N - 1 → ∀ c, c < 6 → k ≠ 2 + c * N + i := by
    intro i hi c hc hkc
    apply hk
    right
    refine ⟨i, hi, ?_⟩
    interval_cases c <;> omega
  unfold FG_eval
  rw [rd_foldl_restConstraint_frame E N Lf coeffs vars _ (N - 1) k h2]
  simp only [initialConstraints, y_start_eq, psi_start_eq, v_start_eq, cte_start_eq,
    epsi_start_eq, x_start]
  simp (disch := omega) only [rd_set_ne]

/-- Every entry at a constraint index is assigned by `operator()`: it does not depend on what
`fg` held before the call. -/
theorem rd_FG_eval_assigned (E : Elem R) (N : ℕ) (Lf : R) (coeffs vars fg fg1 : List R)
    (hN : 2 ≤ N) (hfg : fg.length = 1 + 6 * N) (hfg1 : fg1.length = 1 + 6 * N) (k : ℕ)
    (hk : k ∈ FG_eval.constraintIndices N) :
    rd (FG_eval E N Lf coeffs fg vars) k = rd (FG_eval E N Lf coeffs fg1 vars) k := by
  rw [mem_constraintIndices] at hk
  rcases hk with h | ⟨i, hi, h⟩
  · obtain ⟨a0, a1, a2, a3, a4, a5⟩ := rd_FG_eval_initial E N Lf coeffs vars fg hN hfg
    obtain ⟨b0, b1, b2, b3, b4, b5⟩ := rd_FG_eval_initial E N Lf coeffs vars fg1 hN hfg1
    simp only [y_start_eq, psi_start_eq, v_start_eq, cte_start_eq, epsi_start_eq, x_start,
      add_zero] at a0 a1 a2 a3 a4 a5 b0 b1 b2 b3 b4 b5
    rcases h with h | h | h | h | h | h <;> subst h
    · rw [a0, b0]
    · rw [a1, b1]
    · rw [a2, b2]
    · rw [a3, b3]
    · rw [a4, b4]
    · rw [a5, b5]
  · obtain ⟨a0, a1, a2, a3, a4, a5⟩ := rd_FG_eval_values E N Lf coeffs vars fg i hi hfg
    obtain ⟨b0, b1, b2, b3, b4, b5⟩ := rd_FG_eval_values E N Lf coeffs vars fg1 i hi hfg1
    have e0 : 2 + x_start + i = 2 + i := by simp [x_start]
    have e1 : 2 + y_start N + i = 2 + N + i := by rw [y_start_eq]
    have e2 : 2 + psi_start N + i = 2 + 2 * N + i := by rw [psi_start_eq]
    have e3 : 2 + v_start N + i = 2 + 3 * N + i := by rw [v_start_eq]
    have e4 : 2 + cte_start N + i = 2 + 4 * N + i := by rw [cte_start_eq]
    have e5 : 2 + epsi_start N + i = 2 + 5 * N + i := by rw [epsi_start_eq]
    rw [e0] at a0 b0
    rw [e1] at a1 b1
    rw [e2] at a2 b2
    rw [e3] at a3 b3
    rw [e4] at a4 b4
    rw [e5] at a5 b5
    rcases h with h | h | h | h | h | h <;> subst h
    · rw [a0, b0]
    · rw [a1, b1]
    · rw [a2, b2]
    · rw [a3, b3]
    · rw [a4, b4]
    · rw [a5, b5]

/-- C17: for `N ≥ 2` the `fg` indices assigned as constraints, `1 + c_start` for step 0 and
`2 + c_start + i` for `i` in `[0, N-1)` over the six state channels `c`, are pairwise distinct
and are exactly the indices `1..6N`: each occurs once among the assignments, the index `0`
of the cost does not occur, the entries outside these indices (the cost among them) are left
as the cost part computed them, and every one of the `6N` constraint entries is assigned. -/
theorem constraint_indices_exactly_once (N : ℕ) (hN : 2 ≤ N) :
    (∀ k, (FG_eval.constraintIndices N).count k =
      if 1 ≤ k ∧ k ≤ n_constraints N then 1 else 0) ∧
    (FG_eval.constraintIndices N).Nodup ∧
    (FG_eval.constraintIndices N).length = n_constraints N ∧
    0 ∉ FG_eval.constraintIndices N ∧
    (∀ (E : Elem R) (Lf : R) (coeffs vars fg : List R) (k : ℕ),
      k ∉ FG_eval.constraintIndices N →
      rd (FG_eval E N Lf coeffs fg vars) k = rd (costPart E N coeffs vars fg) k) ∧
    (∀ (E : Elem R) (Lf : R) (coeffs vars fg : List R),
      rd (FG_eval E N Lf coeffs fg vars) 0 = rd (costPart E N coeffs vars fg) 0) ∧
    (∀ (E : Elem R) (Lf : R) (coeffs vars fg fg1 : List R),
      fg.length = 1 + n_constraints N → fg1.length = 1 + n_constraints N →
      ∀ k, 1 ≤ k → k ≤ n_constraints N →
      rd (FG_eval E N Lf coeffs fg vars) k = rd (FG_eval E N Lf coeffs fg1 vars) k) := by
  have h0 : 0 ∉ FG_eval.constraintIndices N := by
    rw [mem_constraintIndices_iff N 0 hN]
    omega
  refine ⟨?_, nodup_constraintIndices N hN, length_constraintIndices N hN, h0, ?_, ?_, ?_⟩
  · intro k
    by_cases hk : 1 ≤ k ∧ k ≤ n_constraints N
    · rw [if_pos hk]
      exact List.count_eq_one_of_mem (nodup_constraintIndices N hN)
        ((mem_constraintIndices_iff N k hN).mpr hk)
    · rw [if_neg hk]
      exact List.count_eq_zero_of_not_mem
        (fun h => hk ((mem_constraintIndices_iff N k hN).mp h))
  · intro E Lf coeffs vars fg k hk
    exact rd_FG_eval_frame E N Lf coeffs vars fg k hk
  · intro E Lf coeffs vars fg
    exact rd_FG_eval_frame E N Lf coeffs vars fg 0 h0
  · intro E Lf coeffs vars fg fg1 hfg hfg1 k hk1 hk2
    exact rd_FG_eval_assigned E N Lf coeffs vars fg fg1 hN hfg hfg1 k
      ((mem_constraintIndices_iff N k hN).mpr ⟨hk1, hk2⟩)

/-- The constraint indices of the horizon `2` are the indices `1..12`, each once. -/
theorem constraint_indices_exactly_once_witness :
    FG_eval.constraintIndices 2 = [1, 3, 5, 7, 9, 11, 2, 4, 6, 8, 10, 12] ∧
      (FG_eval.constraintIndices 2).Nodup ∧ (FG_eval.constraintIndices 2).length = 12 ∧
      (FG_eval.constraintIndices 2).count 0 = 0 ∧ (FG_eval.constraintIndices 2).count 7 = 1 :=
  ⟨by decide, (constraint_indices_exactly_once (R := ℝ) 2 (le_refl 2)).2.1,
    (constraint_indices_exactly_once (R := ℝ) 2 (le_refl 2)).2.2.1,
    (constraint_indices_exactly_once (R := ℝ) 2 (le_refl 2)).1 0,
    (constraint_indices_exactly_once (R := ℝ) 2 (le_refl 2)).1 7⟩

/-! ## The indices read from the solution vector -/

/-- The vector `result` holds the entries of `solution.x` at the indices of
`Solve.result.reads`, in order. -/
theorem Solve.result_eq_reads (N : ℕ) (x : List R) :
    Solve.result N x = (Solve.result.reads N).map (fun r => rd x r.1) := by
  rw [Solve.result_eq]
  have h : List.range 10 = [0, 1, 2, 3, 4, 5, 6, 7, 8, 9] := by decide
  simp only [Solve.result.reads, h, List.map_cons, List.map_nil, List.cons_append,
    List.nil_append, List.map_append]

theorem mem_reads (N : ℕ) (r : ℕ × (ℕ × ℕ)) :
    r ∈ Solve.result.reads N ↔
      r = (delta_start N, (delta_start N, N - 1)) ∨ r = (a_start N, (a_start N, N - 1)) ∨
      (∃ i, i < 10 ∧ r = (x_start + i, (x_start, N))) ∨
      (∃ i, i < 10 ∧ r = (y_start N + i, (y_start N, N))) ∨
      r = (psi_start N + 2, (psi_start N, N)) ∨ r = (v_start N + 2, (v_start N, N)) ∨
      r = (cte_start N + 2, (cte_start N, N)) ∨ r = (epsi_start N + 2, (epsi_start N, N)) := by
  simp only [Solve.result.reads, List.mem_append, List.mem_cons, List.mem_map, List.mem_range,
    List.not_mem_nil, or_false, or_assoc, eq_comm]

/-- The reads of the solution vector stay below `n_vars` for `N ≥ 2`. -/
theorem reads_lt_n_vars (N : ℕ) (hN : 2 ≤ N) (r : ℕ × (ℕ × ℕ))
    (hr : r ∈ Solve.result.reads N) : r.1 < n_vars N := by
  rw [mem_reads] at hr
  simp only [y_start_eq, psi_start_eq, v_start_eq, cte_start_eq, epsi_start_eq, delta_start_eq,
    a_start_eq, x_start] at hr
  rcases hr with h | h | ⟨i, hi, h⟩ | ⟨i, hi, h⟩ | h | h | h | h <;> subst h <;>
    simp only [n_vars] <;> omega

/-- The reads of the solution vector stay inside the block of their channel for `N ≥ 10`. -/
theorem reads_inBlock (N : ℕ) (hN : 10 ≤ N) (r : ℕ × (ℕ × ℕ))
    (hr : r ∈ Solve.result.reads N) : inBlock r.2 r.1 = true := by
  rw [mem_reads] at hr
  simp only [y_start_eq, psi_start_eq, v_start_eq, cte_start_eq, epsi_start_eq, delta_start_eq,
    a_start_eq, x_start] at hr
  rcases hr with h | h | ⟨i, hi, h⟩ | ⟨i, hi, h⟩ | h | h | h | h <;> subst h <;>
    simp only [inBlock, decide_eq_true_eq] <;> omega

/-- C19: the indices read from the solution vector are below `n_vars` for `N ≥ 2`, and they
are all below `n_vars` and inside the block of the channel they are read for if and only if
`N ≥ 10`; this holds for the configured `N = 25`, while for `2 ≤ N < 10` the read of
`x_start + N` is the first index of the y block and the read of `y_start + N` the first index
of the psi block. -/
theorem reads_in_blocks_iff (N : ℕ) :
    (∀ x : List R, Solve.result N x = (Solve.result.reads N).map (fun r => rd x r.1)) ∧
    (2 ≤ N → ∀ r ∈ Solve.result.reads N, r.1 < n_vars N) ∧
    ((∀ r ∈ Solve.result.reads N, r.1 < n_vars N ∧ inBlock r.2 r.1 = true) ↔ 10 ≤ N) ∧
    (∀ r ∈ Solve.result.reads MPC.N, r.1 < n_vars MPC.N ∧ inBlock r.2 r.1 = true) ∧
    (2 ≤ N → N < 10 →
      ((x_start + N, (x_start, N)) ∈ Solve.result.reads N ∧
        inBlock (x_start, N) (x_start + N) = false ∧ x_start + N = y_start N ∧
        inBlock (y_start N, N) (x_start + N) = true) ∧
      ((y_start N + N, (y_start N, N)) ∈ Solve.result.reads N ∧
        inBlock (y_start N, N) (y_start N + N) = false ∧ y_start N + N = psi_start N ∧
        inBlock (psi_start N, N) (y_start N + N) = true)) := by
  refine ⟨Solve.result_eq_reads N, reads_lt_n_vars N, ⟨?_, ?_⟩, ?_, ?_⟩
  · intro h
    have h9 := (h (x_start + 9, (x_start, N))
      ((mem_reads N _).mpr (Or.inr (Or.inr (Or.inl ⟨9, by omega, rfl⟩))))).2
    simp only [inBlock, decide_eq_true_eq, x_start] at h9
    omega
  · intro hN r hr
    exact ⟨reads_lt_n_vars N (by omega) r hr, reads_inBlock N hN r hr⟩
  · intro r hr
    exact ⟨reads_lt_n_vars MPC.N (by decide) r hr, reads_inBlock MPC.N (by decide) r hr⟩
  · intro h2 h10
    refine ⟨⟨(mem_reads N _).mpr (Or.inr (Or.inr (Or.inl ⟨N, h10, rfl⟩))), ?_, ?_, ?_⟩,
      ⟨(mem_reads N _).mpr (Or.inr (Or.inr (Or.inr (Or.inl ⟨N, h10, rfl⟩)))), ?_, ?_, ?_⟩⟩
    · simp only [inBlock, decide_eq_false_iff_not, x_start]; omega
    · simp only [y_start_eq, x_start]; omega
    · simp only [inBlock, decide_eq_true_eq, y_start_eq, x_start]; omega
    · simp only [inBlock, decide_eq_false_iff_not, y_start_eq]; omega
    · simp only [psi_start_eq, y_start_eq]; omega
    · simp only [inBlock, decide_eq_true_eq, y_start_eq, psi_start_eq]; omega

/-- The reads for the configured horizon `N = 25` and for the horizon `5`: for `N = 5` the
read of `x_start + 5` is the first entry of the y block. -/
theorem reads_in_blocks_iff_witness :
    (∀ r ∈ Solve.result.reads 25, r.1 < n_vars 25 ∧ inBlock r.2 r.1 = true) ∧
      ((x_start + 5, (x_start, 5)) ∈ Solve.result.reads 5 ∧
        inBlock (x_start, 5) (x_start + 5) = false ∧ x_start + 5 = y_start 5 ∧
        inBlock (y_start 5, 5) (x_start + 5) = true) :=
  ⟨(reads_in_blocks_iff (R := ℝ) 25).2.2.1.mpr (by decide),
    ((reads_in_blocks_iff (R := ℝ) 5).2.2.2.2 (by decide) (by decide)).1⟩

/-! ## Uniform motion along a straight path -/

theorem rd_uniformMotion (E : Elem R) (N : ℕ) (x y psi : R) (hN : 2 ≤ N) (k : ℕ) :
    rd (uniformMotion E N x y psi) k = uniformMotionAt E N x y psi k := by
  by_cases hk : k < n_vars N
  · simp [rd, uniformMotion, List.getD_eq_getElem?_getD, List.getElem?_map,
      List.getElem?_range hk]
  · have h0 : uniformMotionAt E N x y psi k = 0 := by
      simp only [uniformMotionAt, y_start_eq, psi_start_eq, v_start_eq, cte_start_eq]
      simp only [n_vars] at hk
      rw [if_neg (by omega), if_neg (by omega), if_neg (by omega), if_neg (by omega)]
    rw [h0]
    have hlen : (uniformMotion E N x y psi).length ≤ k := by
      simp only [uniformMotion, List.length_map, List.length_range]
      omega
    simp [rd, List.getD_eq_getElem?_getD, List.getElem?_eq_none hlen]

/-- The entries of the uniform-motion vector, block by block. -/
theorem uniformMotion_values (E : Elem R) (N : ℕ) (x y psi : R) (hN : 2 ≤ N) (i : ℕ)
    (hi : i < N) :
    rd (uniformMotion E N x y psi) (x_start + i) = x + 60 * E.cos psi * dt * (i : R) ∧
    rd (uniformMotion E N x y psi) (y_start N + i) = y + 60 * E.sin psi * dt * (i : R) ∧
    rd (uniformMotion E N x y psi) (psi_start N + i) = psi ∧
    rd (uniformMotion E N x y psi) (v_start N + i) = 60 ∧
    rd (uniformMotion E N x y psi) (cte_start N + i) = 0 ∧
    rd (uniformMotion E N x y psi) (epsi_start N + i) = 0 ∧
    rd (uniformMotion E N x y psi) (delta_start N + i) = 0 ∧
    rd (uniformMotion E N x y psi) (a_start N + i) = 0 := by
  simp only [rd_uniformMotion E N x y psi hN, uniformMotionAt, y_start_eq, psi_start_eq,
    v_start_eq, cte_start_eq, epsi_start_eq, delta_start_eq, a_start_eq, x_start]
  refine ⟨?_, ?_, ?_, ?_, ?_, ?_, ?_, ?_⟩
  · rw [if_pos (by omega)]
    simp
  · rw [if_neg (by omega), if_pos (by omega)]
    simp
  · rw [if_neg (by omega), if_neg (by omega), if_pos (by omega)]
  · rw [if_neg (by omega), if_neg (by omega), if_neg (by omega), if_pos (by omega)]
  · rw [if_neg (by omega), if_neg (by omega), if_neg (by omega), if_neg (by omega)]
  · rw [if_neg (by omega), if_neg (by omega), if_neg (by omega), if_neg (by omega)]
  · rw [if_neg (by omega), if_neg (by omega), if_neg (by omega), if_neg (by omega)]
  · rw [if_neg (by omega), if_neg (by omega), if_neg (by omega), if_neg (by omega)]

theorem f0_line (c0 c1 x0 : R) : f0 [c0, c1] x0 = c0 + c1 * x0 := by
  have h : List.range 2 = [0, 1] := by decide
  simp [f0, h, rd]

theorem psides0_line (c0 c1 x0 : R) : psides0 [c0, c1] x0 = c1 := by
  simp [psides0, rd]

theorem wrap_zero (E : Elem R) (hpi : 0 ≤ E.M_PI) : wrap E 0 = 0 := by
  unfold wrap
  rw [if_neg (by linarith), if_neg (by linarith)]

theorem CalRcurv_of_length_le_two (E : Elem R) (coeffs : List R) (x : R)
    (h : coeffs.length ≤ 2) : CalRcurv E coeffs x = 1000 := by
  have hd := (pathSecond_of_length_le_two coeffs x h).2
  unfold CalRcurv
  simp only [hd, ne_eq, not_true_eq_false, if_false]

theorem speedError_line (E : Elem R) (c0 c1 x : R) :
    speedError (sharpness (CalRcurv E [c0, c1] x)) 60 = 0 := by
  rw [CalRcurv_of_length_le_two E [c0, c1] x (le_refl 2)]
  unfold sharpness
  rw [if_pos (le_refl _)]
  unfold speedError ref_v
  rw [if_pos (by norm_num)]
  ring

/-- The cost entry on return is not negative. -/
theorem rd_FG_eval_cost_nonneg (E : Elem R) (N : ℕ) (Lf : R) (coeffs vars fg : List R)
    (hfg : fg.length = 1 + 6 * N) : 0 ≤ rd (FG_eval E N Lf coeffs fg vars) 0 := by
  rw [rd_FG_eval_cost E N Lf coeffs vars fg hfg]
  have h01 : (0 : R) ≤ 0.1 := by norm_num
  refine add_nonneg (add_nonneg (Finset.sum_nonneg ?_) (Finset.sum_nonneg ?_))
    (Finset.sum_nonneg ?_)
  · intro i _
    exact add_nonneg (add_nonneg (sq_nonneg _) (sq_nonneg _)) (mul_nonneg h01 (sq_nonneg _))
  · intro i _
    exact sq_nonneg _
  · intro i _
    exact add_nonneg (mul_nonneg (by norm_num) (sq_nonneg _)) (sq_nonneg _)

/-- The residuals of the uniform-motion vector along the line `y = c0 + c1 x` are zero, for
elementary functions with `sin 0 = 0` and `sin (atan c1) = c1 cos (atan c1)`. -/
theorem uniformMotion_residuals (E : Elem R) (N : ℕ) (Lf c0 c1 x : R) (fg : List R)
    (hN : 2 ≤ N) (hfg : fg.length = 1 + 6 * N) (hpi : 0 ≤ E.M_PI) (hsin0 : E.sin 0 = 0)
    (htan : E.sin (E.atan c1) = c1 * E.cos (E.atan c1)) (i : ℕ) (hi : i < N - 1) :
    rd (FG_eval E N Lf [c0, c1] fg (uniformMotion E N x (c0 + c1 * x) (E.atan c1)))
      (2 + x_start + i) = 0 ∧
    rd (FG_eval E N Lf [c0, c1] fg (uniformMotion E N x (c0 + c1 * x) (E.atan c1)))
      (2 + y_start N + i) = 0 ∧
    rd (FG_eval E N Lf [c0, c1] fg (uniformMotion E N x (c0 + c1 * x) (E.atan c1)))
      (2 + psi_start N + i) = 0 ∧
    rd (FG_eval E N Lf [c0, c1] fg (uniformMotion E N x (c0 + c1 * x) (E.atan c1)))
      (2 + v_start N + i) = 0 ∧
    rd (FG_eval E N Lf [c0, c1] fg (uniformMotion E N x (c0 + c1 * x) (E.atan c1)))
      (2 + cte_start N + i) = 0 ∧
    rd (FG_eval E N Lf [c0, c1] fg (uniformMotion E N x (c0 + c1 * x) (E.atan c1)))
      (2 + epsi_start N + i) = 0 := by
  obtain ⟨a0, a1, a2, a3, a4, a5⟩ := rd_FG_eval_values E N Lf [c0, c1]
    (uniformMotion E N x (c0 + c1 * x) (E.atan c1)) fg i hi hfg
  obtain ⟨u0, u1, u2, u3, u4, u5, u6, u7⟩ :=
    uniformMotion_values E N x (c0 + c1 * x) (E.atan c1) hN i (by omega)
  obtain ⟨w0, w1, w2, w3, w4, w5, _, _⟩ :=
    uniformMotion_values E N x (c0 + c1 * x) (E.atan c1) hN (i + 1) (by omega)
  simp only [← Nat.add_assoc] at w0 w1 w2 w3 w4 w5
  have hd : d_psi0 E [c0, c1] (x + 60 * E.cos (E.atan c1) * dt * (i : R)) (E.atan c1) = 0 := by
    unfold d_psi0
    rw [psides0_line, sub_self, wrap_zero E hpi]
  rw [a0, a1, a2, a3, a4, a5, u0, u1, u2, u3, u6, u7, w0, w1, w2, w3, w4, w5, hd, f0_line,
    hsin0, htan]
  push_cast
  refine ⟨by ring, by ring, by ring, by ring, by ring, by ring⟩

/-- The cost of the uniform-motion vector along a straight line is zero. -/
theorem uniformMotion_cost (E : Elem R) (N : ℕ) (Lf c0 c1 x y psi : R) (fg : List R)
    (hN : 2 ≤ N) (hfg : fg.length = 1 + 6 * N) :
    rd (FG_eval E N Lf [c0, c1] fg (uniformMotion E N x y psi)) 0 = 0 := by
  rw [rd_FG_eval_cost E N Lf [c0, c1] _ fg hfg]
  have hA : ∀ i ∈ Finset.range N,
      rd (uniformMotion E N x y psi) (epsi_start N + i) ^ 2 +
        rd (uniformMotion E N x y psi) (cte_start N + i) ^ 2 +
        0.1 * speedError (sharpness (CalRcurv E [c0, c1]
            (rd (uniformMotion E N x y psi) (x_start + i))))
          (rd (uniformMotion E N x y psi) (v_start N + i)) ^ 2 = 0 := by
    intro i hi
    obtain ⟨_, _, _, u3, u4, u5, _, _⟩ :=
      uniformMotion_values E N x y psi hN i (Finset.mem_range.mp hi)
    rw [u3, u4, u5, speedError_line]
    ring
  have hB : ∀ i ∈ Finset.range (N - 1),
      rd (uniformMotion E N x y psi) (delta_start N + i) ^ 2 = 0 := by
    intro i hi
    have hi1 := Finset.mem_range.mp hi
    obtain ⟨_, _, _, _, _, _, u6, _⟩ := uniformMotion_values E N x y psi hN i (by omega)
    rw [u6]
    ring
  have hC : ∀ i ∈ Finset.range (N - 2),
      500 * (rd (uniformMotion E N x y psi) (delta_start N + i + 1) -
          rd (uniformMotion E N x y psi) (delta_start N + i)) ^ 2 +
        (rd (uniformMotion E N x y psi) (a_start N + i + 1) -
          rd (uniformMotion E N x y psi) (a_start N + i)) ^ 2 = 0 := by
    intro i hi
    have hi1 := Finset.mem_range.mp hi
    obtain ⟨_, _, _, _, _, _, u6, u7⟩ := uniformMotion_values E N x y psi hN i (by omega)
    obtain ⟨_, _, _, _, _, _, w6, w7⟩ :=
      uniformMotion_values E N x y psi hN (i + 1) (by omega)
    simp only [← Nat.add_assoc] at w6 w7
    rw [u6, u7, w6, w7]
    ring
  rw [Finset.sum_eq_zero hA, Finset.sum_eq_zero hB, Finset.sum_eq_zero hC]
  ring

/-- The constraint outputs of the uniform-motion vector along the line `y = c0 + c1 x` are
the constraint bounds that `MPC::Solve` builds for the state on the line at the target
speed, for elementary functions with `sin 0 = 0` and `sin (atan c1) = c1 cos (atan c1)`. -/
theorem uniformMotion_feasible (E : Elem R) (N : ℕ) (Lf c0 c1 x : R) (fg : List R)
    (hN : 2 ≤ N) (hfg : fg.length = 1 + 6 * N) (hpi : 0 ≤ E.M_PI) (hsin0 : E.sin 0 = 0)
    (htan : E.sin (E.atan c1) = c1 * E.cos (E.atan c1)) (k : ℕ) (hk : k < 6 * N) :
    rd (FG_eval E N Lf [c0, c1] fg (uniformMotion E N x (c0 + c1 * x) (E.atan c1))) (1 + k) =
      rd (Solve.constraints_lowerbound N [x, c0 + c1 * x, E.atan c1, 60, 0, 0]) k := by
  have hmem : 1 + k ∈ FG_eval.constraintIndices N :=
    (mem_constraintIndices_iff N (1 + k) hN).mpr ⟨by omega, by omega⟩
  rw [mem_constraintIndices] at hmem
  rw [rd_constraints_lowerbound N _ hN k]
  simp only [y_start_eq, psi_start_eq, v_start_eq, cte_start_eq, epsi_start_eq, x_start]
  rcases hmem with h | ⟨i, hi, h⟩
  · obtain ⟨a0, a1, a2, a3, a4, a5⟩ := rd_FG_eval_initial E N Lf [c0, c1]
      (uniformMotion E N x (c0 + c1 * x) (E.atan c1)) fg hN hfg
    obtain ⟨u0, u1, u2, u3, u4, u5, _, _⟩ :=
      uniformMotion_values E N x (c0 + c1 * x) (E.atan c1) hN 0 (by omega)
    simp only [add_zero, Nat.cast_zero, mul_zero] at u0 u1 u2 u3 u4 u5
    rw [u0] at a0
    rw [u1] at a1
    rw [u2] at a2
    rw [u3] at a3
    rw [u4] at a4
    rw [u5] at a5
    simp only [y_start_eq, psi_start_eq, v_start_eq, cte_start_eq, epsi_start_eq, x_start,
      add_zero] at a0 a1 a2 a3 a4 a5
    rcases h with h | h | h | h | h | h
    · rw [h, a0, if_pos (by omega)]; rfl
    · rw [h, a1, if_neg (by omega), if_pos (by omega)]; rfl
    · rw [h, a2, if_neg (by omega), if_neg (by omega), if_pos (by omega)]; rfl
    · rw [h, a3, if_neg (by omega), if_neg (by omega), if_neg (by omega), if_pos (by omega)]
      rfl
    · rw [h, a4, if_neg (by omega), if_neg (by omega), if_neg (by omega), if_neg (by omega),
        if_pos (by omega)]
      rfl
    · rw [h, a5, if_neg (by omega), if_neg (by omega), if_neg (by omega), if_neg (by omega),
        if_neg (by omega), if_pos (by omega)]
      rfl
  · obtain ⟨a0, a1, a2, a3, a4, a5⟩ :=
      uniformMotion_residuals E N Lf c0 c1 x fg hN hfg hpi hsin0 htan i hi
    simp only [y_start_eq, psi_start_eq, v_start_eq, cte_start_eq, epsi_start_eq, x_start,
      add_zero] at a0 a1 a2 a3 a4 a5
    rw [if_neg (by omega), if_neg (by omega), if_neg (by omega), if_neg (by omega),
      if_neg (by omega), if_neg (by omega)]
    rcases h with h | h | h | h | h | h
    · rw [h, a0]
    · rw [h, a1]
    · rw [h, a2]
    · rw [h, a3]
    · rw [h, a4]
    · rw [h, a5]

/-- C18: for every straight path `[c0, c1]` and every state on it at the target speed
(`y = c0 + c1 x`, `psi = atan c1`, `v = 60`, `cte = epsi = 0`), the uniform-motion decision
vector has length `n_vars`, its constraint outputs satisfy all `6N` constraint bounds built by
`MPC::Solve` for this state, and its cost `fg[0]` is `0`, which no decision vector
undercuts. -/
theorem uniform_motion_optimal (N : ℕ) (Lf c0 c1 x : ℝ) (fg : List ℝ) (hN : 2 ≤ N)
    (hfg : fg.length = 1 + n_constraints N) :
    (uniformMotion realElem N x (c0 + c1 * x) (Real.arctan c1)).length = n_vars N ∧
    (∀ k, k < n_constraints N →
      rd (Solve.constraints_lowerbound N [x, c0 + c1 * x, Real.arctan c1, 60, 0, 0]) k ≤
        rd (FG_eval realElem N Lf [c0, c1] fg
          (uniformMotion realElem N x (c0 + c1 * x) (Real.arctan c1))) (1 + k) ∧
      rd (FG_eval realElem N Lf [c0, c1] fg
          (uniformMotion realElem N x (c0 + c1 * x) (Real.arctan c1))) (1 + k) ≤
        rd (Solve.constraints_upperbound N [x, c0 + c1 * x, Real.arctan c1, 60, 0, 0]) k) ∧
    rd (FG_eval realElem N Lf [c0, c1] fg
      (uniformMotion realElem N x (c0 + c1 * x) (Real.arctan c1))) 0 = 0 ∧
    (∀ vars1 fg1 : List ℝ, fg1.length = 1 + n_constraints N →
      rd (FG_eval realElem N Lf [c0, c1] fg
        (uniformMotion realElem N x (c0 + c1 * x) (Real.arctan c1))) 0 ≤
      rd (FG_eval realElem N Lf [c0, c1] fg1 vars1) 0) := by
  have htan : realElem.sin (realElem.atan c1) = c1 * realElem.cos (realElem.atan c1) := by
    show Real.sin (Real.arctan c1) = c1 * Real.cos (Real.arctan c1)
    rw [Real.sin_arctan, Real.cos_arctan]
    ring
  have hcost := uniformMotion_cost realElem N Lf c0 c1 x (c0 + c1 * x) (Real.arctan c1) fg
    hN hfg
  refine ⟨?_, ?_, hcost, ?_⟩
  · simp only [uniformMotion, List.length_map, List.length_range]
  · intro k hk
    have h := uniformMotion_feasible realElem N Lf c0 c1 x fg hN hfg Real.pi_pos.le
      Real.sin_zero htan k hk
    rw [constraints_upperbound_eq]
    exact ⟨le_of_eq h.symm, le_of_eq h⟩
  · intro vars1 fg1 hfg1
    rw [hcost]
    exact rd_FG_eval_cost_nonneg realElem N Lf [c0, c1] vars1 fg1 hfg1

/-- The uniform motion along the line `y = 1 + 2 x` from `x = 3` for the horizon `2`. -/
theorem uniform_motion_optimal_witness :
    (uniformMotion realElem 2 3 (1 + 2 * 3) (Real.arctan 2)).length = n_vars 2 ∧
      rd (FG_eval realElem 2 1 [1, 2] (List.replicate 13 0)
        (uniformMotion realElem 2 3 (1 + 2 * 3) (Real.arctan 2))) 0 = 0 :=
  ⟨(uniform_motion_optimal 2 1 1 2 3 (List.replicate 13 0) (le_refl 2) rfl).1,
    (uniform_motion_optimal 2 1 1 2 3 (List.replicate 13 0) (le_refl 2) rfl).2.2.1⟩

end MPC
